import Mathlib

/-!
A shallow embedding of EasySandbox (src/EasySandbox.c): the seccomp
bootstrap wrapper around the untrusted entry point, and the fixed-pool
memory manager (memmgr, adapted from Eli Bendersky's allocator) that
services malloc/free/calloc/realloc from a single mmap-ed region.

Machine model: the code targets 64-bit Linux, so `size_t` and `ulong`
are 64 bits wide; arithmetic that can wrap is reduced modulo `2 ^ 64`.
`sizeof(mem_header_t)` is 16 bytes (a pointer and a ulong, union-ed
with a ulong for alignment).  Addresses are modelled in header-sized
quanta: the static `base` header lives at model address `baseAddr`,
the pool starts at `poolAddr` (one quantum above it, matching an mmap
region above the statics), and the null pointer is 0.  Payload bytes
are byte-addressed at `hdrSize` times the quanta address.  Loops that
chase `next` pointers carry explicit fuel; a `none` result models a
traversal that does not terminate (which cannot happen in the
well-formed states the theorems quantify over).
-/

set_option maxHeartbeats 1000000

namespace EasySandbox

/-- `2 ^ 64`, the modulus of `size_t` / `unsigned long` arithmetic. -/
def wordMod : Nat := 2 ^ 64

/-- `sizeof(mem_header_t)`: one allocation quantum, in bytes. -/
def hdrSize : Nat := 16

def MIN_POOL_ALLOC_QUANTAS : Nat := 16

def DEFAULT_HEAP_SIZE : Nat := 1024 * 1024

/-- Exit code taken when `prctl(PR_SET_SECCOMP, ...)` fails. -/
def SECCOMP_ERROR : Nat := 17

/-- Exit code taken when `mmap` of the heap fails. -/
def MMAP_FAILED_ERROR : Nat := 18

/-- Model (quanta) address of the static `base` header. -/
def baseAddr : Nat := 1

/-- Model (quanta) address of the first byte of the mmap-ed pool. -/
def poolAddr : Nat := 2

/-- The `s` struct inside `mem_header_union`: the next-free link and
the block size in quantas of `sizeof(mem_header_t)`. -/
structure Header where
  next : Nat
  size : Nat
deriving DecidableEq, Repr

/-- Header memory: quanta address to header contents.  Unwritten
memory reads as zero (the pool is mmap-ed anonymous, hence zeroed). -/
abbrev HeapMem := List (Nat × Header)

def hlookup : HeapMem → Nat → Option Header
  | [], _ => none
  | (k, v) :: rest, a => if k = a then some v else hlookup rest a

def hstore : HeapMem → Nat → Header → HeapMem
  | [], a, h => [(a, h)]
  | (k, v) :: rest, a, h =>
      if k = a then (a, h) :: rest else (k, v) :: hstore rest a h

def readHdr (m : HeapMem) (a : Nat) : Header :=
  (hlookup m a).getD ⟨0, 0⟩

/-- `a->s.next`. -/
def nxOf (m : HeapMem) (a : Nat) : Nat := (readHdr m a).next

/-- `a->s.size`. -/
def szOf (m : HeapMem) (a : Nat) : Nat := (readHdr m a).size

/-- `a->s.next = n;` -/
def setNext (m : HeapMem) (a n : Nat) : HeapMem :=
  hstore m a ⟨n, (readHdr m a).size⟩

/-- `a->s.size = sz;` -/
def setSize (m : HeapMem) (a sz : Nat) : HeapMem :=
  hstore m a ⟨(readHdr m a).next, sz⟩

/-- Payload byte memory: byte address to byte value, zero by default. -/
abbrev Bytes := List (Nat × Nat)

def bread (d : Bytes) (a : Nat) : Nat :=
  match d with
  | [] => 0
  | (k, v) :: rest => if k = a then v else bread rest a

def bstore : Bytes → Nat → Nat → Bytes
  | [], a, v => [(a, v)]
  | (k, w) :: rest, a, v =>
      if k = a then (a, v) :: rest else (k, w) :: bstore rest a v

/-- The memmgr globals: `base` (stored in `hdrs` at `baseAddr`),
`freep`, `pool`, `POOL_SIZE`, `pool_free_pos`, plus the payload byte
store. -/
structure MemMgr where
  hdrs : HeapMem
  freep : Option Nat
  POOL_SIZE : Nat
  pool_free_pos : Nat
  data : Bytes
deriving DecidableEq, Repr

/-- `memmgr_init(pool_, pool_size)`: base.s.next = 0 (null),
base.s.size = 0, freep = 0 (null), pool_free_pos = 0. -/
def memmgr_init (pool_size : Nat) : MemMgr :=
  { hdrs := [(baseAddr, ⟨0, 0⟩)]
  , freep := none
  , POOL_SIZE := pool_size
  , pool_free_pos := 0
  , data := [] }

/-- The scan loop of `memmgr_free`: starting at `p`, advance along
`p->s.next` until `block > p && block < p->s.next`, or break at the
wraparound link when `p >= p->s.next && (block > p || block < p->s.next)`. -/
def freeScan (m : HeapMem) (block : Nat) : Nat → Nat → Option Nat
  | 0, _ => none
  | fuel + 1, p =>
      let pn := nxOf m p
      if block > p ∧ block < pn then some p
      else if p ≥ pn ∧ (block > p ∨ block < pn) then some p
      else freeScan m block fuel pn

/-- `if (block + block->s.size == p->s.next) { block->s.size +=
p->s.next->s.size; block->s.next = p->s.next->s.next; } else
block->s.next = p->s.next;` — every dereference is performed on the
memory current at that point. -/
def mergeHigher (m0 : HeapMem) (p block : Nat) : HeapMem :=
  if block + szOf m0 block = nxOf m0 p then
    setNext (setSize m0 block (szOf m0 block + szOf m0 (nxOf m0 p)))
      block
      (nxOf (setSize m0 block (szOf m0 block + szOf m0 (nxOf m0 p)))
        (nxOf (setSize m0 block (szOf m0 block + szOf m0 (nxOf m0 p))) p))
  else
    setNext m0 block (nxOf m0 p)

/-- `if (p + p->s.size == block) { p->s.size += block->s.size;
p->s.next = block->s.next; } else p->s.next = block;` -/
def mergeLower (m1 : HeapMem) (p block : Nat) : HeapMem :=
  if p + szOf m1 p = block then
    setNext (setSize m1 p (szOf m1 p + szOf m1 block)) p
      (nxOf (setSize m1 p (szOf m1 p + szOf m1 block)) block)
  else
    setNext m1 p block

/-- `memmgr_free(ap)`.  `ap` is the payload quanta address; the header
sits one quantum below it.  Returns `none` if the scan diverges. -/
def memmgr_free (s : MemMgr) (ap : Nat) : Option MemMgr :=
  match s.freep with
  | none => none
  | some f =>
    match freeScan s.hdrs (ap - 1) (s.hdrs.length + 1) f with
    | none => none
    | some p =>
      some
        { s with
          hdrs := mergeLower (mergeHigher s.hdrs p (ap - 1)) p (ap - 1),
          freep := some p }

/-- The `if (nquantas < MIN_POOL_ALLOC_QUANTAS) nquantas = MIN_POOL_ALLOC_QUANTAS;`
bump at the top of `get_mem_from_pool`. -/
def poolBump (nquantas : Nat) : Nat :=
  if nquantas < MIN_POOL_ALLOC_QUANTAS then MIN_POOL_ALLOC_QUANTAS else nquantas

/-- `total_req_size = nquantas * sizeof(mem_header_t)` (64-bit). -/
def totalReq (nquantas : Nat) : Nat := (poolBump nquantas * hdrSize) % wordMod

/-- `get_mem_from_pool(nquantas)`: bump `nquantas` to the minimum, and
if the pool has room, carve a block at `pool_free_pos`, free it, and
advance the cursor; otherwise return null with nothing changed.  The
returned pointer is `freep` on success, 0 (`none`) on failure. -/
def get_mem_from_pool (s : MemMgr) (nquantas : Nat) : Option (Option Nat × MemMgr) :=
  if (s.pool_free_pos + totalReq nquantas) % wordMod ≤ s.POOL_SIZE then
    match memmgr_free
        { s with hdrs := setSize s.hdrs (poolAddr + s.pool_free_pos / hdrSize)
                   (poolBump nquantas) }
        (poolAddr + s.pool_free_pos / hdrSize + 1) with
    | none => none
    | some s1 =>
        some (s1.freep,
          { s1 with pool_free_pos := (s1.pool_free_pos + totalReq nquantas) % wordMod })
  else
    some (none, s)

/-- `nquantas` as computed at the top of `memmgr_alloc`:
`(nbytes + sizeof(mem_header_t) - 1) / sizeof(mem_header_t) + 1`,
in 64-bit arithmetic. -/
def nquantasOf (nbytes : Nat) : Nat :=
  ((nbytes + hdrSize - 1) % wordMod) / hdrSize + 1

/-- The `for` loop of `memmgr_alloc`.  At each step `p` is examined:
a big-enough block is unlinked (exact fit) or split (returning the
high-address tail); when the scan wraps to `freep`, the pool is asked
for more memory.  The result pointer is the payload quanta address. -/
def allocLoop (s : MemMgr) (nquantas : Nat) (prevp p : Nat) :
    Nat → Option (Option Nat × MemMgr)
  | 0 => none
  | fuel + 1 =>
      if szOf s.hdrs p ≥ nquantas then
        if szOf s.hdrs p = nquantas then
          -- unlink the block from the free list
          let m := setNext s.hdrs prevp (nxOf s.hdrs p)
          some (some (p + 1), { s with hdrs := m, freep := some prevp })
        else
          -- too big: shrink it, and return its high-address tail
          let m1 := setSize s.hdrs p (szOf s.hdrs p - nquantas)
          let pt := p + szOf m1 p
          let m2 := setSize m1 pt nquantas
          some (some (pt + 1), { s with hdrs := m2, freep := some prevp })
      else if some p = s.freep then
        match get_mem_from_pool s nquantas with
        | none => none
        | some (none, s1) => some (none, s1)
        | some (some p2, s2) => allocLoop s2 nquantas p2 (nxOf s2.hdrs p2) fuel
      else
        allocLoop s nquantas p (nxOf s.hdrs p) fuel

/-- Fuel that suffices for `allocLoop` on any well-formed state: one
full cycle, a pool refill, and a second cycle. -/
def allocFuel (s : MemMgr) : Nat := 2 * s.hdrs.length + 8

/-- `memmgr_alloc(nbytes)`.  Returns the payload quanta address, or
`none` for a null return; the outer `Option` is loop divergence. -/
def memmgr_alloc (s : MemMgr) (nbytes : Nat) : Option (Option Nat × MemMgr) :=
  let nquantas := nquantasOf nbytes
  match s.freep with
  | none =>
      -- first call: seed the free list with the degenerate base block
      let m := setSize (setNext s.hdrs baseAddr baseAddr) baseAddr 0
      let s1 := { s with hdrs := m, freep := some baseAddr }
      allocLoop s1 nquantas baseAddr (nxOf s1.hdrs baseAddr) (allocFuel s1)
  | some f =>
      allocLoop s nquantas f (nxOf s.hdrs f) (allocFuel s)

/-- `memmgr_get_block_size(ap)`: the `size` field of the header one
quantum below the payload pointer (a quanta count, not bytes). -/
def memmgr_get_block_size (m : HeapMem) (ap : Nat) : Nat :=
  szOf m (ap - 1)

/-- `malloc(size)` simply forwards to `memmgr_alloc`. -/
def malloc (s : MemMgr) (size : Nat) : Option (Option Nat × MemMgr) :=
  memmgr_alloc s size

/-- `free(ptr)` simply forwards to `memmgr_free`. -/
def free (s : MemMgr) (ptr : Nat) : Option MemMgr :=
  memmgr_free s ptr

/-- The zeroing loop of `calloc`: `count` ascending byte stores of 0
starting at byte address `start`. -/
def zeroFill (d : Bytes) (start : Nat) : Nat → Bytes
  | 0 => d
  | k + 1 => zeroFill (bstore d start 0) (start + 1) k

/-- `calloc(nmemb, size)`: allocate `nmemb * size` bytes (the product
taken in 64-bit arithmetic, unguarded) and zero that many bytes. -/
def calloc (s : MemMgr) (nmemb size : Nat) : Option (Option Nat × MemMgr) :=
  match malloc s ((nmemb * size) % wordMod) with
  | none => none
  | some (none, s1) => some (none, s1)
  | some (some buf, s1) =>
      some (some buf,
        { s1 with data := zeroFill s1.data (buf * hdrSize) ((nmemb * size) % wordMod) })

/-- The copy loop of `realloc`: `count` ascending byte moves from
`src` to `dst`. -/
def copyBytes (d : Bytes) (src dst : Nat) : Nat → Bytes
  | 0 => d
  | k + 1 => copyBytes (bstore d dst (bread d src)) (src + 1) (dst + 1) k

/-- The state after the copy loop of `realloc`: `to_copy` is
`min(memmgr_get_block_size(ptr), size)` — the unconverted quanta count
against the byte count. -/
def reallocCopy (s1 : MemMgr) (ptr buf size : Nat) : MemMgr :=
  { s1 with
    data := copyBytes s1.data (ptr * hdrSize) (buf * hdrSize)
      (min (memmgr_get_block_size s1.hdrs ptr) size) }

/-- `realloc(ptr, size)`: allocate a new buffer; if that succeeds,
copy `min(memmgr_get_block_size(ptr), size)` bytes (note: the block
size is a quanta count) and free the old buffer; on allocation
failure return null with the old buffer untouched. -/
def realloc (s : MemMgr) (ptr : Nat) (size : Nat) : Option (Option Nat × MemMgr) :=
  match malloc s size with
  | none => none
  | some (none, s1) => some (none, s1)
  | some (some buf, s1) =>
      match memmgr_free (reallocCopy s1 ptr buf size) ptr with
      | none => none
      | some s3 => some (some buf, s3)

/-- The three externally visible acts of the bootstrap `main`, in
program order. -/
inductive BootEvent where
  | acquireRegion
  | lockdown
  | runUntrusted
deriving DecidableEq, Repr

/-- How the process ends: an `_exit` before the untrusted code runs,
or the return value of `realmain`. -/
inductive BootResult where
  | exited (code : Nat)
  | returned (code : Int)
deriving DecidableEq, Repr

/-- The bootstrap `main`: mmap the heap (exit `MMAP_FAILED_ERROR` on
failure), `memmgr_init` it, enter seccomp via `prctl` (exit
`SECCOMP_ERROR` on failure), then return `realmain`'s status.  The
environment's verdicts on `mmap` and `prctl` are inputs; the emitted
event trace records what ran. -/
def mainWrapper (mmapOk prctlOk : Bool) (realmainRet : Int) :
    List BootEvent × BootResult :=
  if !mmapOk then
    ([.acquireRegion], .exited MMAP_FAILED_ERROR)
  else if !prctlOk then
    ([.acquireRegion, .lockdown], .exited SECCOMP_ERROR)
  else
    ([.acquireRegion, .lockdown, .runUntrusted], .returned realmainRet)

/-! ### Basic facts about the header and byte stores -/

theorem hlookup_hstore_same (m : HeapMem) (a : Nat) (h : Header) :
    hlookup (hstore m a h) a = some h := by
  induction m with
  | nil => simp [hstore, hlookup]
  | cons kv rest ih =>
      obtain ⟨k, v⟩ := kv
      by_cases hk : k = a
      · simp [hstore, hk, hlookup]
      · simp [hstore, hk, hlookup, ih]

theorem hlookup_hstore_other (m : HeapMem) (a b : Nat) (h : Header) (hb : b ≠ a) :
    hlookup (hstore m a h) b = hlookup m b := by
  induction m with
  | nil => simp [hstore, hlookup, Ne.symm hb]
  | cons kv rest ih =>
      obtain ⟨k, v⟩ := kv
      by_cases hk : k = a
      · subst hk
        simp [hstore, hlookup, Ne.symm hb]
      · simp only [hstore, if_neg hk, hlookup]
        by_cases hkb : k = b <;> simp [hkb, ih]

theorem readHdr_hstore_same (m : HeapMem) (a : Nat) (h : Header) :
    readHdr (hstore m a h) a = h := by
  simp [readHdr, hlookup_hstore_same]

theorem readHdr_hstore_other (m : HeapMem) (a b : Nat) (h : Header) (hb : b ≠ a) :
    readHdr (hstore m a h) b = readHdr m b := by
  simp [readHdr, hlookup_hstore_other m a b h hb]

theorem szOf_setNext (m : HeapMem) (a n b : Nat) :
    szOf (setNext m a n) b = szOf m b := by
  by_cases hb : b = a
  · subst hb; simp [szOf, setNext, readHdr_hstore_same]
  · simp [szOf, setNext, readHdr_hstore_other _ _ _ _ hb]

theorem nxOf_setNext_same (m : HeapMem) (a n : Nat) :
    nxOf (setNext m a n) a = n := by
  simp [nxOf, setNext, readHdr_hstore_same]

theorem nxOf_setNext_other (m : HeapMem) (a n b : Nat) (hb : b ≠ a) :
    nxOf (setNext m a n) b = nxOf m b := by
  simp [nxOf, setNext, readHdr_hstore_other _ _ _ _ hb]

theorem nxOf_setSize (m : HeapMem) (a sz b : Nat) :
    nxOf (setSize m a sz) b = nxOf m b := by
  by_cases hb : b = a
  · subst hb; simp [nxOf, setSize, readHdr_hstore_same]
  · simp [nxOf, setSize, readHdr_hstore_other _ _ _ _ hb]

theorem szOf_setSize_same (m : HeapMem) (a sz : Nat) :
    szOf (setSize m a sz) a = sz := by
  simp [szOf, setSize, readHdr_hstore_same]

theorem szOf_setSize_other (m : HeapMem) (a sz b : Nat) (hb : b ≠ a) :
    szOf (setSize m a sz) b = szOf m b := by
  simp [szOf, setSize, readHdr_hstore_other _ _ _ _ hb]

theorem readHdr_setNext_other (m : HeapMem) (a n b : Nat) (hb : b ≠ a) :
    readHdr (setNext m a n) b = readHdr m b :=
  readHdr_hstore_other _ _ _ _ hb

theorem readHdr_setSize_other (m : HeapMem) (a sz b : Nat) (hb : b ≠ a) :
    readHdr (setSize m a sz) b = readHdr m b :=
  readHdr_hstore_other _ _ _ _ hb

/-! ### The allocator never touches payload bytes, and never changes the
pool size -/

theorem memmgr_free_frame (s : MemMgr) (ap : Nat) (s1 : MemMgr)
    (h : memmgr_free s ap = some s1) :
    s1.data = s.data ∧ s1.POOL_SIZE = s.POOL_SIZE ∧
      s1.pool_free_pos = s.pool_free_pos := by
  unfold memmgr_free at h
  split at h
  · cases h
  · split at h
    · cases h
    · cases h
      exact ⟨rfl, rfl, rfl⟩

theorem get_mem_from_pool_frame (s : MemMgr) (nq : Nat) (r : Option Nat)
    (s1 : MemMgr) (h : get_mem_from_pool s nq = some (r, s1)) :
    s1.data = s.data ∧ s1.POOL_SIZE = s.POOL_SIZE := by
  unfold get_mem_from_pool at h
  split at h
  · split at h
    · exact absurd h (by simp)
    · next s2 heq =>
        cases h
        have hfr := memmgr_free_frame _ _ _ heq
        exact ⟨hfr.1, hfr.2.1⟩
  · cases h
    exact ⟨rfl, rfl⟩

theorem allocLoop_frame (nq : Nat) : ∀ (fuel : Nat) (s : MemMgr)
    (prevp p : Nat) (r : Option Nat) (s1 : MemMgr),
    allocLoop s nq prevp p fuel = some (r, s1) →
    s1.data = s.data ∧ s1.POOL_SIZE = s.POOL_SIZE := by
  intro fuel
  induction fuel with
  | zero => intro s prevp p r s1 h; simp [allocLoop] at h
  | succ fuel ih =>
      intro s prevp p r s1 h
      simp only [allocLoop] at h
      split at h
      · split at h
        · cases h; exact ⟨rfl, rfl⟩
        · cases h; exact ⟨rfl, rfl⟩
      · split at h
        · split at h
          · exact absurd h (by simp)
          · next s2 heq =>
              cases h
              exact get_mem_from_pool_frame s nq none _ heq
          · next p2 s2 heq =>
              have hfr := get_mem_from_pool_frame s nq (some p2) s2 heq
              have h4 := ih s2 p2 (nxOf s2.hdrs p2) r s1 h
              exact ⟨h4.1.trans hfr.1, h4.2.trans hfr.2⟩
        · exact ih s p (nxOf s.hdrs p) r s1 h

theorem memmgr_alloc_frame (s : MemMgr) (n : Nat) (r : Option Nat) (s1 : MemMgr)
    (h : memmgr_alloc s n = some (r, s1)) :
    s1.data = s.data ∧ s1.POOL_SIZE = s.POOL_SIZE := by
  unfold memmgr_alloc at h
  cases hf : s.freep with
  | none =>
      simp only [hf] at h
      have h2 := allocLoop_frame _ _ _ _ _ _ _ h
      exact h2
  | some f =>
      simp only [hf] at h
      have h2 := allocLoop_frame _ _ _ _ _ _ _ h
      exact h2

/-! ### On success, the returned block's header carries exactly the
computed quanta count -/

theorem allocLoop_size (nq : Nat) : ∀ (fuel : Nat) (s : MemMgr)
    (prevp p : Nat) (ptr : Nat) (s1 : MemMgr),
    allocLoop s nq prevp p fuel = some (some ptr, s1) →
    1 ≤ ptr ∧ szOf s1.hdrs (ptr - 1) = nq := by
  intro fuel
  induction fuel with
  | zero => intro s prevp p ptr s1 h; simp [allocLoop] at h
  | succ fuel ih =>
      intro s prevp p ptr s1 h
      simp only [allocLoop] at h
      split at h
      · next hge =>
        split at h
        · next heqn =>
            cases h
            refine ⟨Nat.le_add_left 1 p, ?_⟩
            simpa [szOf_setNext] using heqn
        · next heqn =>
            cases h
            have hpt : p + szOf (setSize s.hdrs p (szOf s.hdrs p - nq)) p + 1 - 1
                = p + (szOf s.hdrs p - nq) := by
              simp [szOf_setSize_same]
            refine ⟨Nat.le_add_left 1 _, ?_⟩
            rw [hpt]
            rw [show szOf (setSize s.hdrs p (szOf s.hdrs p - nq)) p
                = szOf s.hdrs p - nq from szOf_setSize_same _ _ _]
            exact szOf_setSize_same _ _ _
      · split at h
        · split at h
          · exact absurd h (by simp)
          · simp at h
          · next p2 s2 heq => exact ih s2 p2 (nxOf s2.hdrs p2) ptr s1 h
        · exact ih s p (nxOf s.hdrs p) ptr s1 h

theorem memmgr_alloc_size (s : MemMgr) (n : Nat) (ptr : Nat) (s1 : MemMgr)
    (h : memmgr_alloc s n = some (some ptr, s1)) :
    szOf s1.hdrs (ptr - 1) = nquantasOf n := by
  unfold memmgr_alloc at h
  cases hf : s.freep with
  | none =>
      simp only [hf] at h
      exact (allocLoop_size _ _ _ _ _ _ _ h).2
  | some f =>
      simp only [hf] at h
      exact (allocLoop_size _ _ _ _ _ _ _ h).2

/-! ### When the pool refuses the request, a null return leaves the
state exactly as it was -/

/-- The negation of the room test inside `get_mem_from_pool`: the
cursor headroom is insufficient for the (bumped) request. -/
def poolRefuses (s : MemMgr) (nquantas : Nat) : Prop :=
  ¬ ((s.pool_free_pos + totalReq nquantas) % wordMod ≤ s.POOL_SIZE)

theorem get_mem_from_pool_refused (s : MemMgr) (nq : Nat)
    (hr : poolRefuses s nq) : get_mem_from_pool s nq = some (none, s) := by
  unfold get_mem_from_pool
  rw [if_neg hr]

theorem allocLoop_null_of_refused (nq : Nat) : ∀ (fuel : Nat) (s : MemMgr)
    (prevp p : Nat) (s1 : MemMgr), poolRefuses s nq →
    allocLoop s nq prevp p fuel = some (none, s1) → s1 = s := by
  intro fuel
  induction fuel with
  | zero => intro s prevp p s1 _ h; simp [allocLoop] at h
  | succ fuel ih =>
      intro s prevp p s1 hr h
      simp only [allocLoop] at h
      split at h
      · split at h
        · exact absurd h (by simp)
        · exact absurd h (by simp)
      · split at h
        · rw [get_mem_from_pool_refused s nq hr] at h
          cases h
          rfl
        · exact ih s p (nxOf s.hdrs p) s1 hr h

/-- The seeding of the free list performed by the first `memmgr_alloc`
call (`base.s.next = freep = prevp = &base; base.s.size = 0;`). -/
def seedBase (s : MemMgr) : MemMgr :=
  { s with
    hdrs := setSize (setNext s.hdrs baseAddr baseAddr) baseAddr 0,
    freep := some baseAddr }

theorem memmgr_alloc_null_of_refused (s : MemMgr) (n : Nat) (s1 : MemMgr)
    (hr : poolRefuses s (nquantasOf n))
    (h : memmgr_alloc s n = some (none, s1)) :
    (∀ f, s.freep = some f → s1 = s) ∧ (s.freep = none → s1 = seedBase s) := by
  unfold memmgr_alloc at h
  cases hf : s.freep with
  | none =>
      simp only [hf] at h
      constructor
      · intro f hff; cases hff
      · intro _
        exact allocLoop_null_of_refused _ _ _ _ _ _
          (show poolRefuses (seedBase s) (nquantasOf n) from hr) h
  | some f =>
      simp only [hf] at h
      constructor
      · intro f2 hff
        cases hff
        exact allocLoop_null_of_refused _ _ _ _ _ _ hr h
      · intro hn; cases hn

/-! ### Arithmetic facts about the quanta computation -/

theorem wordMod_val : wordMod = 18446744073709551616 := by norm_num [wordMod]

theorem nquantas_covers (n : Nat) (h : n + hdrSize ≤ wordMod) :
    n ≤ (nquantasOf n - 1) * hdrSize := by
  rw [wordMod_val] at h
  unfold hdrSize at h
  unfold nquantasOf hdrSize
  rw [wordMod_val]
  rw [Nat.mod_eq_of_lt (by omega)]
  have hd := Nat.div_add_mod (n + 16 - 1) 16
  have hm : (n + 16 - 1) % 16 < 16 := Nat.mod_lt _ (by norm_num)
  omega

theorem nquantas_exact_multiple (k : Nat) (h : k * hdrSize + hdrSize ≤ wordMod) :
    nquantasOf (k * hdrSize) = k + 1 := by
  rw [wordMod_val] at h
  unfold hdrSize at h
  unfold nquantasOf hdrSize
  rw [wordMod_val]
  rw [Nat.mod_eq_of_lt (by omega)]
  have hd := Nat.div_add_mod (k * 16 + 16 - 1) 16
  have hm : (k * 16 + 16 - 1) % 16 < 16 := Nat.mod_lt _ (by norm_num)
  omega

/-! ### Facts about the byte store and the zeroing loop -/

theorem bread_bstore_same (d : Bytes) (a v : Nat) :
    bread (bstore d a v) a = v := by
  induction d with
  | nil => simp [bstore, bread]
  | cons kv rest ih =>
      obtain ⟨k, w⟩ := kv
      by_cases hk : k = a
      · simp [bstore, hk, bread]
      · simp [bstore, hk, bread, ih]

theorem bread_bstore_other (d : Bytes) (a v b : Nat) (hb : b ≠ a) :
    bread (bstore d a v) b = bread d b := by
  induction d with
  | nil => simp [bstore, bread, Ne.symm hb]
  | cons kv rest ih =>
      obtain ⟨k, w⟩ := kv
      by_cases hk : k = a
      · subst hk
        simp [bstore, bread, Ne.symm hb]
      · simp only [bstore, if_neg hk, bread]
        by_cases hkb : k = b <;> simp [hkb, ih]

theorem bread_zeroFill_before : ∀ (k : Nat) (d : Bytes) (start a : Nat),
    a < start → bread (zeroFill d start k) a = bread d a := by
  intro k
  induction k with
  | zero => intro d start a _; rfl
  | succ k ih =>
      intro d start a ha
      rw [zeroFill, ih _ _ _ (by omega)]
      exact bread_bstore_other _ _ _ _ (by omega)

theorem bread_zeroFill_after : ∀ (k : Nat) (d : Bytes) (start a : Nat),
    start + k ≤ a → bread (zeroFill d start k) a = bread d a := by
  intro k
  induction k with
  | zero => intro d start a _; rfl
  | succ k ih =>
      intro d start a ha
      rw [zeroFill, ih _ _ _ (by omega)]
      exact bread_bstore_other _ _ _ _ (by omega)

theorem bread_zeroFill_inside : ∀ (k : Nat) (d : Bytes) (start i : Nat),
    i < k → bread (zeroFill d start k) (start + i) = 0 := by
  intro k
  induction k with
  | zero => intro d start i hi; omega
  | succ k ih =>
      intro d start i hi
      cases i with
      | zero =>
          rw [zeroFill]
          have h1 : bread (zeroFill (bstore d start 0) (start + 1) k) (start + 0)
              = bread (bstore d start 0) (start + 0) :=
            bread_zeroFill_before k _ (start + 1) (start + 0) (by omega)
          rw [h1]
          simpa using bread_bstore_same d start 0
      | succ i =>
          rw [zeroFill, show start + (i + 1) = (start + 1) + i by omega]
          exact ih _ _ _ (by omega)

/-! ### Concrete demonstration states (a 1024-byte pool) -/

/-- A freshly initialized 1024-byte pool. -/
def cPool : MemMgr := memmgr_init 1024

/-- The result of the first `malloc(16)`: payload pointer 17, backed
by a 2-quanta block at address 16. -/
def cA1 : Option Nat × MemMgr := (malloc cPool 16).getD (none, cPool)

/-- The untrusted program fills its 16 usable payload bytes with the
value 7. -/
def cWritten : MemMgr :=
  { cA1.2 with
    data := (List.range 16).foldl (fun d i => bstore d (17 * hdrSize + i) 7) cA1.2.data }

/-- `realloc(p, 32)` applied to that buffer. -/
def cRe : Option Nat × MemMgr := (realloc cWritten 17 32).getD (none, cPool)

/-- `calloc(2^32, 2^32)` on a fresh pool: the 64-bit product wraps to 0. -/
def cCal : Option Nat × MemMgr := (calloc cPool (2 ^ 32) (2 ^ 32)).getD (none, cPool)

/-- C1 (code bug): `realloc` is specified to copy
`min(oldSize, newSize)` bytes where `oldSize` is the old block's
usable byte capacity, preserving those bytes.  The code instead feeds
`memmgr_get_block_size` — a quanta count — into the byte-count
computation: for a 16-byte allocation (block size field 2, usable
capacity 16 bytes) filled with the value 7, `realloc(p, 32)` copies
only `min(2, 32) = 2` bytes, so byte 2 of the new payload reads 0
where the specification requires the original value 7. -/
theorem realloc_quanta_copy_bug :
    malloc cPool 16 = some cA1 ∧ cA1.1 = some 17 ∧
    memmgr_get_block_size cA1.2.hdrs 17 = 2 ∧
    (∀ i, i < 16 → bread cWritten.data (17 * hdrSize + i) = 7) ∧
    realloc cWritten 17 32 = some cRe ∧ cRe.1 = some 14 ∧
    bread cRe.2.data (14 * hdrSize) = 7 ∧
    bread cRe.2.data (14 * hdrSize + 1) = 7 ∧
    bread cRe.2.data (14 * hdrSize + 2) = 0 ∧
    min 16 32 = 16 := by decide

/-- C2 (counterexample): `blockSize` does not return a byte capacity
at least `n`: a successful `allocate(16)` yields a block whose
recorded size is 2 (a quanta count), and `2 < 16`. -/
theorem block_size_not_byte_capacity :
    malloc cPool 16 = some cA1 ∧ cA1.1 = some 17 ∧
    memmgr_get_block_size cA1.2.hdrs 17 = 2 ∧
    ¬ (16 ≤ memmgr_get_block_size cA1.2.hdrs 17) := by decide

/-- C2 (amended): for every pointer returned by a successful
`allocate(n)`, `blockSize` returns the size recorded at allocation
time measured in header-sized quanta and including the header
quantum — exactly `(n + 15) / 16 + 1` — and the corresponding usable
payload capacity `(blockSize - 1) * 16` is at least `n`. -/
theorem block_size_is_quanta_count (s : MemMgr) (n ptr : Nat) (s1 : MemMgr)
    (hn : n + hdrSize ≤ wordMod)
    (h : memmgr_alloc s n = some (some ptr, s1)) :
    memmgr_get_block_size s1.hdrs ptr = nquantasOf n ∧
    n ≤ (memmgr_get_block_size s1.hdrs ptr - 1) * hdrSize := by
  have hs := memmgr_alloc_size s n ptr s1 h
  unfold memmgr_get_block_size
  refine ⟨hs, ?_⟩
  rw [hs]
  exact nquantas_covers n hn

theorem block_size_is_quanta_count_witness :
    16 + hdrSize ≤ wordMod ∧
    memmgr_get_block_size cA1.2.hdrs 17 = nquantasOf 16 ∧
    16 ≤ (memmgr_get_block_size cA1.2.hdrs 17 - 1) * hdrSize :=
  ⟨by decide,
    block_size_is_quanta_count cPool 16 17 cA1.2 (by decide) (by decide)⟩

/-- C3: the bootstrap `main` performs acquire, lockdown, run strictly
in that order, each at most once; an `mmap` failure exits with
`MMAP_FAILED_ERROR` (18) before lockdown, a `prctl` failure exits
with the distinct `SECCOMP_ERROR` (17), and in both cases the
untrusted entry point never runs; when both succeed, `main` returns
`realmain`'s status unchanged. -/
theorem bootstrap_order_and_exit_codes :
    MMAP_FAILED_ERROR ≠ SECCOMP_ERROR ∧
    ∀ (m p : Bool) (r : Int),
      (mainWrapper m p r).1.Sublist
        [BootEvent.acquireRegion, BootEvent.lockdown, BootEvent.runUntrusted] ∧
      (m = false →
        mainWrapper m p r = ([BootEvent.acquireRegion], BootResult.exited MMAP_FAILED_ERROR)) ∧
      (m = true → p = false →
        mainWrapper m p r = ([BootEvent.acquireRegion, BootEvent.lockdown],
          BootResult.exited SECCOMP_ERROR)) ∧
      (m = true → p = true →
        mainWrapper m p r = ([BootEvent.acquireRegion, BootEvent.lockdown,
          BootEvent.runUntrusted], BootResult.returned r)) ∧
      (BootEvent.runUntrusted ∈ (mainWrapper m p r).1 → m = true ∧ p = true) := by
  refine ⟨by decide, ?_⟩
  intro m p r
  cases m <;> cases p <;>
    simp [mainWrapper, List.Sublist.cons, List.Sublist.cons₂]

/-- If `realloc` hands back a null result, the inner `malloc` is what
returned null, with the same resulting state. -/
theorem realloc_null_from_malloc (s : MemMgr) (ptr size : Nat) (s1 : MemMgr)
    (h : realloc s ptr size = some (none, s1)) :
    malloc s size = some (none, s1) := by
  unfold realloc at h
  split at h
  · exact absurd h (by simp)
  · next s2 heq =>
      cases h
      exact heq
  · next buf s2 heq =>
      split at h
      · exact absurd h (by simp)
      · next s3 heq2 => cases h

/-- C7: when the allocation inside `reallocate` fails, `reallocate`
returns null; no payload byte anywhere is modified, and — whenever
the cursor headroom is genuinely insufficient and the free list has
been seeded (`freep` non-null, as after any successful allocation) —
the entire allocator state, the old block and its header included, is
exactly unchanged: in particular the old block is not released. -/
theorem realloc_failure_preserves_old_block (s : MemMgr) (ptr size : Nat)
    (s1 : MemMgr) (h : realloc s ptr size = some (none, s1)) :
    s1.data = s.data ∧ s1.POOL_SIZE = s.POOL_SIZE ∧
    (poolRefuses s (nquantasOf size) → ∀ f, s.freep = some f → s1 = s) := by
  have hm := realloc_null_from_malloc s ptr size s1 h
  have hfr := memmgr_alloc_frame s size none s1 hm
  refine ⟨hfr.1, hfr.2, ?_⟩
  intro hpr f hf
  exact (memmgr_alloc_null_of_refused s size s1 hpr hm).1 f hf

/-- A small pool in which `realloc` to a huge size fails: one 16-byte
allocation on a 512-byte pool, its payload filled with the value 9. -/
def cSmall : Option Nat × MemMgr := (malloc (memmgr_init 512) 16).getD (none, memmgr_init 512)

def cSmallW : MemMgr :=
  { cSmall.2 with
    data := (List.range 16).foldl (fun d i => bstore d (17 * hdrSize + i) 9) cSmall.2.data }

theorem realloc_failure_preserves_witness :
    realloc cSmallW 17 1024 = some (none, cSmallW) ∧
    (cSmallW.data = cSmallW.data ∧ cSmallW.POOL_SIZE = cSmallW.POOL_SIZE ∧
      (poolRefuses cSmallW (nquantasOf 1024) → ∀ f, cSmallW.freep = some f →
        cSmallW = cSmallW)) :=
  ⟨by decide,
    realloc_failure_preserves_old_block cSmallW 17 1024 cSmallW (by decide)⟩

/-- C10: `calloc(nmemb, size)` computes the byte count as the 64-bit
product `(nmemb * size) % 2^64` with no overflow guard: its result is
exactly that of `malloc` on the reduced product; on success the block
carries the quanta count for the reduced product, the first
`(nmemb * size) % 2^64` payload bytes are zeroed and no other byte is
touched.  Concretely, `calloc(2^32, 2^32)` wraps to a 0-byte request
and hands out a block of one quantum (0 usable payload bytes), far
smaller than the mathematical product. -/
theorem calloc_mod_word_semantics :
    (∀ (s : MemMgr) (nmemb size : Nat),
      (calloc s nmemb size).map Prod.fst
        = (malloc s ((nmemb * size) % wordMod)).map Prod.fst) ∧
    (∀ (s : MemMgr) (nmemb size buf : Nat) (s1 : MemMgr),
      calloc s nmemb size = some (some buf, s1) →
      memmgr_get_block_size s1.hdrs buf = nquantasOf ((nmemb * size) % wordMod) ∧
      (∀ i, i < (nmemb * size) % wordMod → bread s1.data (buf * hdrSize + i) = 0) ∧
      (∀ a, a < buf * hdrSize ∨ buf * hdrSize + (nmemb * size) % wordMod ≤ a →
        bread s1.data a = bread s.data a)) ∧
    (calloc cPool (2 ^ 32) (2 ^ 32) = some cCal ∧ cCal.1 = some 18 ∧
      memmgr_get_block_size cCal.2.hdrs 18 = 1 ∧
      (memmgr_get_block_size cCal.2.hdrs 18 - 1) * hdrSize = 0 ∧
      0 < 2 ^ 32 * 2 ^ 32) := by
  refine ⟨?_, ?_, by decide⟩
  · intro s nmemb size
    unfold calloc
    cases hm : malloc s ((nmemb * size) % wordMod) with
    | none => rfl
    | some t =>
        obtain ⟨rp, s2⟩ := t
        cases rp <;> rfl
  · intro s nmemb size buf s1 h
    unfold calloc at h
    split at h
    · exact absurd h (by simp)
    · exact absurd h (by simp)
    · next buf2 s2 heq =>
        cases h
        have hsz := memmgr_alloc_size s ((nmemb * size) % wordMod) _ _ heq
        have hdata := (memmgr_alloc_frame s _ _ _ heq).1
        refine ⟨hsz, ?_, ?_⟩
        · intro i hi
          exact bread_zeroFill_inside _ _ _ _ hi
        · intro a ha
          rcases ha with ha | ha
          · rw [bread_zeroFill_before _ _ _ _ ha, hdata]
          · rw [bread_zeroFill_after _ _ _ _ ha, hdata]

theorem calloc_mod_word_witness :
    memmgr_get_block_size cCal.2.hdrs 18 = nquantasOf ((2 ^ 32 * 2 ^ 32) % wordMod) ∧
    (∀ i, i < (2 ^ 32 * 2 ^ 32) % wordMod → bread cCal.2.data (18 * hdrSize + i) = 0) ∧
    (∀ a, a < 18 * hdrSize ∨ 18 * hdrSize + (2 ^ 32 * 2 ^ 32) % wordMod ≤ a →
      bread cCal.2.data a = bread cPool.data a) :=
  calloc_mod_word_semantics.2.1 cPool (2 ^ 32) (2 ^ 32) 18 cCal.2 (by decide)

theorem bootstrap_order_witness :
    mainWrapper false true 0 = ([BootEvent.acquireRegion], BootResult.exited MMAP_FAILED_ERROR) ∧
    mainWrapper true false 0 = ([BootEvent.acquireRegion, BootEvent.lockdown],
      BootResult.exited SECCOMP_ERROR) ∧
    mainWrapper true true 42 = ([BootEvent.acquireRegion, BootEvent.lockdown,
      BootEvent.runUntrusted], BootResult.returned 42) :=
  ⟨(bootstrap_order_and_exit_codes.2 false true 0).2.1 rfl,
   ((bootstrap_order_and_exit_codes.2 true false 0).2.2.1 rfl rfl),
   ((bootstrap_order_and_exit_codes.2 true true 42).2.2.2.1 rfl rfl)⟩

/-! ### The abstract shape of the free list: a cyclic successor
structure over an address-sorted list of free-block addresses -/

/-- The first element of `S` (scanned in list order) strictly above
`a`, or `first` if there is none. -/
def cycSuccAux (first : Nat) : List Nat → Nat → Nat
  | [], _ => first
  | b :: rest, a => if a < b then b else cycSuccAux first rest a

/-- The cyclic successor of `a` in the sorted list `S`: the least
element above `a`, wrapping around to the least element of `S`. -/
def cycSucc (S : List Nat) (a : Nat) : Nat := cycSuccAux (S.headD 0) S a

theorem headD_mem {S : List Nat} (h : S ≠ []) : S.headD 0 ∈ S := by
  cases S with
  | nil => exact absurd rfl h
  | cons a rest => exact List.mem_cons_self a rest

theorem headD_min {S : List Nat} (hs : S.Sorted (· < ·)) :
    ∀ c ∈ S, S.headD 0 ≤ c := by
  cases S with
  | nil => intro c hc; cases hc
  | cons a rest =>
      intro c hc
      rcases List.mem_cons.mp hc with rfl | hc
      · exact Nat.le_refl _
      · exact Nat.le_of_lt (List.rel_of_sorted_cons hs c hc)

theorem cycSuccAux_mem (first : Nat) : ∀ (S : List Nat) (a : Nat),
    cycSuccAux first S a = first ∨ cycSuccAux first S a ∈ S := by
  intro S
  induction S with
  | nil => intro a; exact Or.inl rfl
  | cons b rest ih =>
      intro a
      by_cases hb : a < b
      · right; simp [cycSuccAux, hb]
      · rcases ih a with h | h
        · left; simpa [cycSuccAux, hb] using h
        · right; simp [cycSuccAux, hb]; right; exact h

theorem cycSucc_mem {S : List Nat} (h : S ≠ []) (a : Nat) : cycSucc S a ∈ S := by
  rcases cycSuccAux_mem (S.headD 0) S a with he | he
  · rw [cycSucc, he]; exact headD_mem h
  · exact he

theorem cycSuccAux_least (first : Nat) : ∀ (S : List Nat) (a c : Nat),
    S.Sorted (· < ·) → c ∈ S → a < c →
    a < cycSuccAux first S a ∧ cycSuccAux first S a ≤ c := by
  intro S
  induction S with
  | nil => intro a c _ hc; cases hc
  | cons b rest ih =>
      intro a c hs hc hac
      by_cases hb : a < b
      · refine ⟨by simp [cycSuccAux, hb], ?_⟩
        rcases List.mem_cons.mp hc with rfl | hc
        · simp [cycSuccAux, hb]
        · simpa [cycSuccAux, hb] using
            Nat.le_of_lt (List.rel_of_sorted_cons hs c hc)
      · have hcr : c ∈ rest := by
          rcases List.mem_cons.mp hc with rfl | hc
          · omega
          · exact hc
        have := ih a c ((List.sorted_cons.mp hs).2) hcr hac
        simpa [cycSuccAux, hb] using this

/-- When `a` has an element of `S` above it, `cycSucc S a` is the
least such element. -/
theorem cycSucc_least {S : List Nat} {a c : Nat} (hs : S.Sorted (· < ·))
    (hc : c ∈ S) (hac : a < c) :
    a < cycSucc S a ∧ cycSucc S a ≤ c :=
  cycSuccAux_least (S.headD 0) S a c hs hc hac

theorem cycSuccAux_of_forall_le (first : Nat) : ∀ (S : List Nat) (a : Nat),
    (∀ c ∈ S, c ≤ a) → cycSuccAux first S a = first := by
  intro S
  induction S with
  | nil => intro a _; rfl
  | cons b rest ih =>
      intro a hmax
      have hb : ¬ a < b := by
        have := hmax b (List.mem_cons_self b rest)
        omega
      rw [cycSuccAux]
      simp only [if_neg hb]
      exact ih a (fun c hc => hmax c (List.mem_cons_of_mem b hc))

/-- When `a` is at or above every element, the successor wraps to the
head. -/
theorem cycSucc_of_forall_le {S : List Nat} {a : Nat}
    (hmax : ∀ c ∈ S, c ≤ a) : cycSucc S a = S.headD 0 :=
  cycSuccAux_of_forall_le (S.headD 0) S a hmax

/-- The cyclic successor is injective on members of a sorted list. -/
theorem cycSucc_inj {S : List Nat} {a b : Nat} (hs : S.Sorted (· < ·))
    (ha : a ∈ S) (hb : b ∈ S) (he : cycSucc S a = cycSucc S b) : a = b := by
  have key : ∀ x y : Nat, x ∈ S → y ∈ S → x < y → cycSucc S x ≠ cycSucc S y := by
    intro x y hx hy hxy hcontra
    have h1 := cycSucc_least hs hy hxy
    by_cases hab : ∃ c ∈ S, y < c
    · obtain ⟨c, hc, hyc⟩ := hab
      have h2 := cycSucc_least hs hc hyc
      omega
    · push_neg at hab
      have h2 := cycSucc_of_forall_le hab
      have h3 := headD_min hs x hx
      omega
  rcases Nat.lt_trichotomy a b with h | h | h
  · exact absurd he (key a b ha hb h)
  · exact h
  · exact absurd he.symm (key b a hb ha h)

/-- The greatest element of `S` below `block` (0 when there is
none). -/
def predIn : List Nat → Nat → Nat
  | [], _ => 0
  | a :: rest, block =>
      if a < block then max a (predIn rest block) else predIn rest block

theorem predIn_zero : ∀ (S : List Nat) (block : Nat),
    (∀ c ∈ S, ¬ c < block) → predIn S block = 0 := by
  intro S
  induction S with
  | nil => intro block _; rfl
  | cons a rest ih =>
      intro block h
      rw [predIn, if_neg (h a (List.mem_cons_self a rest))]
      exact ih block (fun c hc => h c (List.mem_cons_of_mem a hc))

theorem predIn_mem : ∀ (S : List Nat) (block : Nat),
    (∃ c ∈ S, c < block) → predIn S block ∈ S ∧ predIn S block < block := by
  intro S
  induction S with
  | nil => intro block h; obtain ⟨c, hc, _⟩ := h; cases hc
  | cons a rest ih =>
      intro block h
      by_cases ha : a < block
      · rw [predIn, if_pos ha]
        by_cases hr : ∃ c ∈ rest, c < block
        · obtain ⟨hm, hl⟩ := ih block hr
          rcases max_choice a (predIn rest block) with he | he <;> rw [he]
          · exact ⟨List.mem_cons_self a rest, ha⟩
          · exact ⟨List.mem_cons_of_mem a hm, hl⟩
        · push_neg at hr
          rw [predIn_zero rest block (fun c hc => by have := hr c hc; omega)]
          simp only [Nat.max_zero]
          exact ⟨List.mem_cons_self a rest, ha⟩
      · rw [predIn, if_neg ha]
        obtain ⟨c, hc, hcl⟩ := h
        have hcr : c ∈ rest := by
          rcases List.mem_cons.mp hc with rfl | hcr
          · omega
          · exact hcr
        obtain ⟨hm, hl⟩ := ih block ⟨c, hcr, hcl⟩
        exact ⟨List.mem_cons_of_mem a hm, hl⟩

theorem predIn_ge : ∀ (S : List Nat) (block c : Nat),
    c ∈ S → c < block → c ≤ predIn S block := by
  intro S
  induction S with
  | nil => intro block c hc; cases hc
  | cons a rest ih =>
      intro block c hc hcl
      rcases List.mem_cons.mp hc with rfl | hcr
      · rw [predIn, if_pos hcl]
        exact Nat.le_max_left _ _
      · have := ih block c hcr hcl
        by_cases ha : a < block
        · rw [predIn, if_pos ha]
          exact Nat.le_trans this (Nat.le_max_right _ _)
        · rw [predIn, if_neg ha]
          exact this

/-! ### Cyclic traversal distance, measured by counting the elements
in the cyclic interval from just after `p` up to `t` -/

/-- `c` lies in the cyclic interval `(p, t]`. -/
def inCycB (p t c : Nat) : Bool :=
  if p < t then decide (p < c ∧ c ≤ t) else decide (p < c ∨ c ≤ t)

/-- How many sorted-list elements a traversal starting just after `p`
passes through up to and including `t`. -/
def cycDist (S : List Nat) (p t : Nat) : Nat :=
  if p = t then 0 else S.countP (inCycB p t)

theorem cycDist_self (S : List Nat) (p : Nat) : cycDist S p p = 0 := by
  simp [cycDist]

theorem cycDist_pos {S : List Nat} {p t : Nat} (ht : t ∈ S) (h : p ≠ t) :
    0 < cycDist S p t := by
  rw [cycDist, if_neg h]
  refine List.countP_pos_iff.mpr ⟨t, ht, ?_⟩
  by_cases hpt : p < t <;> simp [inCycB, hpt]

theorem cycDist_zero_iff {S : List Nat} {p t : Nat} (ht : t ∈ S) :
    cycDist S p t = 0 ↔ p = t := by
  constructor
  · intro h
    by_contra hne
    have := cycDist_pos ht hne
    omega
  · intro h; rw [h]; exact cycDist_self S t

theorem countP_split (S : List Nat) (hnd : S.Nodup) (q : Nat) (hq : q ∈ S)
    (P Q : Nat → Bool) (h1 : ∀ c ∈ S, (P c = true ↔ (Q c = true ∨ c = q)))
    (h2 : Q q = false) : S.countP P = S.countP Q + 1 := by
  induction S with
  | nil => cases hq
  | cons a rest ih =>
      have hnd2 := List.nodup_cons.mp hnd
      rcases List.mem_cons.mp hq with hqa | hqr
      · have hPa : P a = true :=
          (h1 a (List.mem_cons_self a rest)).mpr (Or.inr hqa.symm)
        have hQa : Q a = false := hqa ▸ h2
        have hcong : rest.countP P = rest.countP Q := by
          refine List.countP_congr ?_
          intro c hc
          have h3 := h1 c (List.mem_cons_of_mem a hc)
          have hne : c ≠ q := fun he => hnd2.1 (by rw [← hqa]; exact he ▸ hc)
          constructor
          · intro h4
            rcases (h3.mp h4) with h5 | h5
            · exact h5
            · exact absurd h5 hne
          · intro h4; exact h3.mpr (Or.inl h4)
        rw [List.countP_cons, List.countP_cons, hPa, hQa, hcong]
        simp
      · have ha : a ≠ q := fun he => hnd2.1 (he ▸ hqr)
        have hPa : P a = Q a := by
          have h3 := h1 a (List.mem_cons_self a rest)
          cases hQ : Q a with
          | true => simp [h3.mpr (Or.inl hQ)]
          | false =>
              cases hP : P a with
              | false => rfl
              | true =>
                  rcases h3.mp hP with h4 | h4
                  · rw [hQ] at h4; cases h4
                  · exact absurd h4 ha
        rw [List.countP_cons, List.countP_cons, hPa,
          ih hnd2.2 hqr (fun c hc => h1 c (List.mem_cons_of_mem a hc))]
        omega

/-- `inCycB` as plain arithmetic. -/
theorem inCycB_eq (p t c : Nat) : inCycB p t c = true ↔
    ((p < t ∧ p < c ∧ c ≤ t) ∨ (¬ p < t ∧ (p < c ∨ c ≤ t))) := by
  by_cases h : p < t <;> simp [inCycB, h]

/-- Walking one cyclic-successor step shortens the distance to the
target by exactly one. -/
theorem cycDist_step {S : List Nat} {p t : Nat} (hs : S.Sorted (· < ·))
    (hp : p ∈ S) (ht : t ∈ S) (hpt : p ≠ t) :
    cycDist S (cycSucc S p) t + 1 = cycDist S p t := by
  have hnd : S.Nodup := hs.nodup
  have hne : S ≠ [] := List.ne_nil_of_mem hp
  have hqmem : cycSucc S p ∈ S := cycSucc_mem hne p
  by_cases hqt : cycSucc S p = t
  · -- one step away: the interval `(p, t]` holds exactly `t`
    rw [hqt, cycDist_self, cycDist, if_neg hpt]
    have h1 : S.countP (inCycB p t) = S.countP (fun _ => false) + 1 := by
      refine countP_split S hnd t ht _ _ ?_ rfl
      intro c hc
      simp only [inCycB_eq, false_iff, Bool.false_eq_true, false_or]
      by_cases hab : ∃ e ∈ S, p < e
      · obtain ⟨e, he, hpe⟩ := hab
        have hpq : p < cycSucc S p := (cycSucc_least hs he hpe).1
        have hqc2 : ¬ p < c ∨ cycSucc S p ≤ c := by
          by_cases h : p < c
          · exact Or.inr (cycSucc_least hs hc h).2
          · exact Or.inl h
        omega
      · push_neg at hab
        have hcp : c ≤ p := hab c hc
        have htp : t ≤ p := hab t ht
        have hq3 : cycSucc S p = S.headD 0 := cycSucc_of_forall_le hab
        have hqc : cycSucc S p ≤ c := hq3 ▸ headD_min hs c hc
        omega
    rw [h1, List.countP_false]
    rfl
  · rw [cycDist, if_neg hqt, cycDist, if_neg hpt]
    refine (countP_split S hnd (cycSucc S p) hqmem _ _ ?_ ?_).symm
    · intro c hc
      simp only [inCycB_eq]
      by_cases hab : ∃ e ∈ S, p < e
      · obtain ⟨e, he, hpe⟩ := hab
        have hpq : p < cycSucc S p := (cycSucc_least hs he hpe).1
        have hqc2 : ¬ p < c ∨ cycSucc S p ≤ c := by
          by_cases h : p < c
          · exact Or.inr (cycSucc_least hs hc h).2
          · exact Or.inl h
        have hqt3 : ¬ p < t ∨ cycSucc S p ≤ t := by
          by_cases h : p < t
          · exact Or.inr (cycSucc_least hs ht h).2
          · exact Or.inl h
        omega
      · push_neg at hab
        have hcp : c ≤ p := hab c hc
        have htp : t ≤ p := hab t ht
        have hq3 : cycSucc S p = S.headD 0 := cycSucc_of_forall_le hab
        have hqc : cycSucc S p ≤ c := hq3 ▸ headD_min hs c hc
        have hqt4 : cycSucc S p ≤ t := hq3 ▸ headD_min hs t ht
        omega
    · rw [← Bool.not_eq_true, inCycB_eq]
      omega

theorem cycDist_le_length (S : List Nat) (p t : Nat) :
    cycDist S p t ≤ S.length := by
  rw [cycDist]
  split
  · omega
  · exact List.countP_le_length _

/-! ### Well-formedness of the allocator state

The free list, read through the `next` links starting at `freep`, is
exactly the cyclic-successor structure of an address-sorted list `S`
of free headers: circular, address-ordered, with the single
wraparound edge from the greatest element back to the least (the
static `base`).  Free blocks lie inside the carved part of the pool
and are pairwise disjoint. -/
def WF (s : MemMgr) (S : List Nat) (f : Nat) : Prop :=
  S.Sorted (· < ·) ∧
  f ∈ S ∧
  s.freep = some f ∧
  (∀ a ∈ S, nxOf s.hdrs a = cycSucc S a) ∧
  baseAddr ∈ S ∧
  szOf s.hdrs baseAddr = 0 ∧
  (∀ a ∈ S, a ≠ baseAddr → poolAddr ≤ a ∧ 1 ≤ szOf s.hdrs a) ∧
  (∀ a ∈ S, a + szOf s.hdrs a ≤ poolAddr + s.pool_free_pos / hdrSize) ∧
  (∀ a ∈ S, ∀ b ∈ S, a < b → a + szOf s.hdrs a ≤ b) ∧
  (∀ a ∈ S, a ∈ s.hdrs.map Prod.fst) ∧
  (s.hdrs.map Prod.fst).Nodup ∧
  hdrSize ∣ s.pool_free_pos ∧
  s.pool_free_pos ≤ s.POOL_SIZE ∧
  s.POOL_SIZE + 256 < wordMod

theorem WF_base_min {s : MemMgr} {S : List Nat} {f : Nat} (hwf : WF s S f) :
    ∀ c ∈ S, baseAddr ≤ c := by
  obtain ⟨_, _, _, _, _, _, hlower, _⟩ := hwf
  intro c hc
  by_cases hcb : c = baseAddr
  · omega
  · have := (hlower c hc hcb).1
    rw [poolAddr] at this
    rw [baseAddr]
    omega

theorem WF_headD {s : MemMgr} {S : List Nat} {f : Nat} (hwf : WF s S f) :
    S.headD 0 = baseAddr := by
  have hb : baseAddr ∈ S := hwf.2.2.2.2.1
  have hne : S ≠ [] := List.ne_nil_of_mem hb
  have h1 := headD_min hwf.1 baseAddr hb
  have h2 := WF_base_min hwf (S.headD 0) (headD_mem hne)
  omega

theorem WF_len {s : MemMgr} {S : List Nat} {f : Nat} (hwf : WF s S f) :
    S.length ≤ s.hdrs.length := by
  have h1 : S ⊆ s.hdrs.map Prod.fst := fun a ha => hwf.2.2.2.2.2.2.2.2.2.1 a ha
  have h2 := (List.subperm_of_subset hwf.1.nodup h1).length_le
  simpa using h2

/-! ### Ordered insertion and deletion on the sorted free list -/

def delOne (x : Nat) (S : List Nat) : List Nat :=
  S.filter (fun a => decide (a ≠ x))

def insAsc (x : Nat) : List Nat → List Nat
  | [] => [x]
  | a :: rest => if x < a then x :: a :: rest else a :: insAsc x rest

theorem mem_delOne {x a : Nat} {S : List Nat} :
    a ∈ delOne x S ↔ a ∈ S ∧ a ≠ x := by
  simp [delOne, List.mem_filter]

theorem delOne_sorted {x : Nat} {S : List Nat} (hs : S.Sorted (· < ·)) :
    (delOne x S).Sorted (· < ·) :=
  hs.filter _

theorem mem_insAsc {x a : Nat} : ∀ {S : List Nat},
    (a ∈ insAsc x S ↔ a = x ∨ a ∈ S) := by
  intro S
  induction S with
  | nil => simp [insAsc]
  | cons b rest ih =>
      by_cases hb : x < b
      · simp only [insAsc, if_pos hb, List.mem_cons]
      · simp only [insAsc, if_neg hb, List.mem_cons, ih]
        tauto

theorem insAsc_sorted {x : Nat} : ∀ {S : List Nat}, S.Sorted (· < ·) →
    x ∉ S → (insAsc x S).Sorted (· < ·) := by
  intro S
  induction S with
  | nil => intro _ _; simp [insAsc, List.sorted_singleton]
  | cons b rest ih =>
      intro hs hx
      have hs2 := List.sorted_cons.mp hs
      by_cases hb : x < b
      · rw [insAsc, if_pos hb]
        refine List.sorted_cons.mpr ⟨?_, hs⟩
        intro c hc
        rcases List.mem_cons.mp hc with rfl | hc
        · exact hb
        · exact Nat.lt_trans hb (hs2.1 c hc)
      · rw [insAsc, if_neg hb]
        have hxb : b < x := by
          rcases Nat.lt_trichotomy x b with h | h | h
          · exact absurd h hb
          · exact absurd (h ▸ List.mem_cons_self b rest) hx
          · exact h
        refine List.sorted_cons.mpr ⟨?_, ih hs2.2 (fun h => hx (List.mem_cons_of_mem b h))⟩
        intro c hc
        rcases mem_insAsc.mp hc with rfl | hc
        · exact hxb
        · exact hs2.1 c hc

theorem insAsc_headD {x b : Nat} {rest : List Nat} (h : ¬ x < b) :
    (insAsc x (b :: rest)).headD 0 = b := by
  rw [insAsc, if_neg h]
  rfl

/-! ### Facts about header-store keys -/

theorem keys_hstore (m : HeapMem) (a : Nat) (h : Header) :
    ∀ b, b ∈ (hstore m a h).map Prod.fst ↔ b = a ∨ b ∈ m.map Prod.fst := by
  induction m with
  | nil => intro b; simp [hstore]
  | cons kv rest ih =>
      intro b
      obtain ⟨k, v⟩ := kv
      by_cases hk : k = a
      · subst hk
        have he : hstore ((k, v) :: rest) k h = (k, h) :: rest := by
          simp [hstore]
        rw [he]
        simp only [List.map_cons, List.mem_cons]
        tauto
      · simp only [hstore, if_neg hk, List.map_cons, List.mem_cons, ih]
        tauto

theorem knodup_hstore (m : HeapMem) (a : Nat) (h : Header)
    (hnd : (m.map Prod.fst).Nodup) : ((hstore m a h).map Prod.fst).Nodup := by
  induction m with
  | nil => simp [hstore]
  | cons kv rest ih =>
      obtain ⟨k, v⟩ := kv
      simp only [List.map_cons, List.nodup_cons] at hnd
      by_cases hk : k = a
      · subst hk
        have he : hstore ((k, v) :: rest) k h = (k, h) :: rest := by
          simp [hstore]
        rw [he]
        simp only [List.map_cons, List.nodup_cons]
        exact ⟨hnd.1, hnd.2⟩
      · simp only [hstore, if_neg hk, List.map_cons, List.nodup_cons]
        refine ⟨?_, ih hnd.2⟩
        intro hmem
        rcases (keys_hstore rest a h k).mp hmem with h2 | h2
        · exact hk h2
        · exact hnd.1 h2

theorem hstore_length_ge (m : HeapMem) (a : Nat) (h : Header) :
    m.length ≤ (hstore m a h).length := by
  induction m with
  | nil => simp [hstore]
  | cons kv rest ih =>
      obtain ⟨k, v⟩ := kv
      by_cases hk : k = a <;> simp [hstore, hk]
      exact ih

/-! ### The `memmgr_free` scan stops exactly at the address-ordered
predecessor of the freed block -/

theorem freeScan_stop_iff (m : HeapMem) (S : List Nat) (block : Nat)
    (hs : S.Sorted (· < ·))
    (hlinks : ∀ a ∈ S, nxOf m a = cycSucc S a)
    (hbmem : baseAddr ∈ S)
    (hmin : ∀ c ∈ S, baseAddr ≤ c)
    (hb : poolAddr ≤ block) (hnot : block ∉ S) :
    ∀ p ∈ S,
      ((block > p ∧ block < nxOf m p) ∨
        (p ≥ nxOf m p ∧ (block > p ∨ block < nxOf m p))) ↔ p = predIn S block := by
  intro p hp
  have hbase_lt : baseAddr < block := by
    rw [baseAddr]; rw [poolAddr] at hb; omega
  have hex : ∃ c ∈ S, c < block := ⟨baseAddr, hbmem, hbase_lt⟩
  obtain ⟨hprm, hprlt⟩ := predIn_mem S block hex
  have hheadD : S.headD 0 = baseAddr := by
    have h1 := headD_min hs baseAddr hbmem
    have h2 := hmin (S.headD 0) (headD_mem (List.ne_nil_of_mem hbmem))
    omega
  rw [hlinks p hp]
  by_cases hppr : p = predIn S block
  · rw [hppr]
    simp only [iff_true]
    by_cases habove : ∃ c ∈ S, block < c
    · obtain ⟨c, hc, hbc⟩ := habove
      have hq := cycSucc_least hs hc (Nat.lt_trans hprlt hbc)
      have hqm : cycSucc S (predIn S block) ∈ S :=
        cycSucc_mem (List.ne_nil_of_mem hbmem) _
      have hqblock : cycSucc S (predIn S block) ≠ block := fun he => hnot (he ▸ hqm)
      have hqle : cycSucc S (predIn S block) < block →
          cycSucc S (predIn S block) ≤ predIn S block :=
        fun h => predIn_ge S block _ hqm h
      left
      constructor
      · exact hprlt
      · rcases Nat.lt_trichotomy (cycSucc S (predIn S block)) block with h | h | h
        · have := hqle h; omega
        · exact absurd h hqblock
        · exact h
    · push_neg at habove
      have hple : ∀ c ∈ S, c ≤ predIn S block := by
        intro c hc
        have h1 := habove c hc
        by_cases hcb : c < block
        · exact predIn_ge S block c hc hcb
        · have : c = block := by omega
          exact absurd (this ▸ hc) hnot
      have hq := cycSucc_of_forall_le hple
      rw [hq, hheadD]
      right
      have := hmin (predIn S block) hprm
      refine ⟨this, Or.inl hprlt⟩
  · simp only [hppr, iff_false]
    intro hstop
    by_cases hplt : p < block
    · have hple2 : p ≤ predIn S block := predIn_ge S block p hp hplt
      have hplt2 : p < predIn S block := by omega
      have hq := cycSucc_least hs hprm hplt2
      omega
    · have hpgt : block < p := by
        rcases Nat.lt_trichotomy p block with h | h | h
        · omega
        · exact absurd (h ▸ hp) hnot
        · exact h
      by_cases habove2 : ∃ c ∈ S, p < c
      · obtain ⟨c, hc, hpc⟩ := habove2
        have hq := cycSucc_least hs hc hpc
        omega
      · push_neg at habove2
        have hq := cycSucc_of_forall_le habove2
        rw [hq, hheadD] at hstop
        rw [baseAddr] at hstop
        rw [poolAddr] at hb
        have := hmin p hp
        rw [baseAddr] at this
        omega

/-- A characterization of the cyclic successor: any member above `a`
that bounds all members above `a` is it. -/
theorem cycSucc_eq_of {S : List Nat} {a v : Nat} (hs : S.Sorted (· < ·))
    (hv : v ∈ S) (h1 : a < v) (h2 : ∀ c ∈ S, a < c → v ≤ c) :
    cycSucc S a = v := by
  have h3 := cycSucc_least hs hv h1
  have h4 : cycSucc S a ∈ S := cycSucc_mem (List.ne_nil_of_mem hv) a
  have h5 := h2 _ h4 h3.1
  omega

theorem headD_eq_base {L : List Nat} (hs : L.Sorted (· < ·))
    (hb : baseAddr ∈ L) (hmin : ∀ c ∈ L, baseAddr ≤ c) :
    L.headD 0 = baseAddr := by
  have h1 := headD_min hs baseAddr hb
  have h2 := hmin (L.headD 0) (headD_mem (List.ne_nil_of_mem hb))
  omega

/-- What `mergeHigher` writes and leaves alone. -/
theorem mergeHigher_reads (m0 : HeapMem) (p block : Nat) (hpb : p ≠ block)
    (hnb : nxOf m0 p ≠ block) :
    readHdr (mergeHigher m0 p block) block =
      (if block + szOf m0 block = nxOf m0 p then
        (⟨nxOf m0 (nxOf m0 p), szOf m0 block + szOf m0 (nxOf m0 p)⟩ : Header)
       else (⟨nxOf m0 p, szOf m0 block⟩ : Header)) ∧
    (∀ a, a ≠ block → readHdr (mergeHigher m0 p block) a = readHdr m0 a) := by
  unfold mergeHigher
  by_cases hc : block + szOf m0 block = nxOf m0 p
  · rw [if_pos hc, if_pos hc]
    have hms : ∀ a, a ≠ block →
        readHdr (setSize m0 block (szOf m0 block + szOf m0 (nxOf m0 p))) a
          = readHdr m0 a :=
      fun a ha => readHdr_setSize_other _ _ _ _ ha
    have hnx1 : nxOf (setSize m0 block (szOf m0 block + szOf m0 (nxOf m0 p))) p
        = nxOf m0 p := by
      rw [nxOf, hms p hpb]; rfl
    have hnx2 : nxOf (setSize m0 block (szOf m0 block + szOf m0 (nxOf m0 p)))
        (nxOf (setSize m0 block (szOf m0 block + szOf m0 (nxOf m0 p))) p)
        = nxOf m0 (nxOf m0 p) := by
      rw [hnx1, nxOf, hms _ hnb]; rfl
    constructor
    · rw [hnx2, setNext, readHdr_hstore_same]
      congr 1
      exact szOf_setSize_same m0 block (szOf m0 block + szOf m0 (nxOf m0 p))
    · intro a ha
      rw [setNext, hnx2]
      rw [readHdr_hstore_other _ _ _ _ ha]
      exact hms a ha
  · rw [if_neg hc, if_neg hc]
    constructor
    · rw [setNext, readHdr_hstore_same]
      rfl
    · intro a ha
      exact readHdr_hstore_other _ _ _ _ ha

/-- What `mergeLower` writes and leaves alone. -/
theorem mergeLower_reads (m1 : HeapMem) (p block : Nat) (hpb : p ≠ block) :
    readHdr (mergeLower m1 p block) p =
      (if p + szOf m1 p = block then
        (⟨nxOf m1 block, szOf m1 p + szOf m1 block⟩ : Header)
       else (⟨block, szOf m1 p⟩ : Header)) ∧
    (∀ a, a ≠ p → readHdr (mergeLower m1 p block) a = readHdr m1 a) := by
  unfold mergeLower
  by_cases hc : p + szOf m1 p = block
  · rw [if_pos hc, if_pos hc]
    have hnx : nxOf (setSize m1 p (szOf m1 p + szOf m1 block)) block = nxOf m1 block := by
      rw [nxOf, readHdr_setSize_other _ _ _ _ (fun he => hpb he.symm)]; rfl
    constructor
    · rw [hnx, setNext, readHdr_hstore_same]
      congr 1
      exact szOf_setSize_same m1 p (szOf m1 p + szOf m1 block)
    · intro a ha
      rw [setNext, hnx, readHdr_hstore_other _ _ _ _ ha]
      exact readHdr_setSize_other _ _ _ _ ha
  · rw [if_neg hc, if_neg hc]
    constructor
    · rw [setNext, readHdr_hstore_same]
      rfl
    · intro a ha
      exact readHdr_hstore_other _ _ _ _ ha

theorem keys_mergeHigher (m0 : HeapMem) (p block : Nat) :
    ∀ b, b ∈ (mergeHigher m0 p block).map Prod.fst ↔
      b = block ∨ b ∈ m0.map Prod.fst := by
  intro b
  unfold mergeHigher
  split
  · rw [setNext, keys_hstore, setSize, keys_hstore]
    tauto
  · rw [setNext, keys_hstore]

theorem keys_mergeLower (m1 : HeapMem) (p block : Nat) :
    ∀ b, b ∈ (mergeLower m1 p block).map Prod.fst ↔
      b = p ∨ b ∈ m1.map Prod.fst := by
  intro b
  unfold mergeLower
  split
  · rw [setNext, keys_hstore, setSize, keys_hstore]
    tauto
  · rw [setNext, keys_hstore]

theorem knodup_mergeHigher (m0 : HeapMem) (p block : Nat)
    (h : (m0.map Prod.fst).Nodup) :
    ((mergeHigher m0 p block).map Prod.fst).Nodup := by
  unfold mergeHigher
  split
  · exact knodup_hstore _ _ _ (knodup_hstore _ _ _ h)
  · exact knodup_hstore _ _ _ h

theorem knodup_mergeLower (m1 : HeapMem) (p block : Nat)
    (h : (m1.map Prod.fst).Nodup) :
    ((mergeLower m1 p block).map Prod.fst).Nodup := by
  unfold mergeLower
  split
  · exact knodup_hstore _ _ _ (knodup_hstore _ _ _ h)
  · exact knodup_hstore _ _ _ h

theorem freeScan_finds (m : HeapMem) (S : List Nat) (block : Nat)
    (hs : S.Sorted (· < ·))
    (hlinks : ∀ a ∈ S, nxOf m a = cycSucc S a)
    (hbmem : baseAddr ∈ S)
    (hmin : ∀ c ∈ S, baseAddr ≤ c)
    (hb : poolAddr ≤ block) (hnot : block ∉ S) :
    ∀ (fuel : Nat) (p : Nat), p ∈ S →
      cycDist S p (predIn S block) < fuel →
      freeScan m block fuel p = some (predIn S block) := by
  have hbase_lt : baseAddr < block := by
    rw [baseAddr]; rw [poolAddr] at hb; omega
  obtain ⟨hprm, hprlt⟩ := predIn_mem S block ⟨baseAddr, hbmem, hbase_lt⟩
  intro fuel
  induction fuel with
  | zero => intro p hp h; omega
  | succ fuel ih =>
      intro p hp hdist
      simp only [freeScan]
      by_cases hppr : p = predIn S block
      · have hstop := (freeScan_stop_iff m S block hs hlinks hbmem hmin hb hnot p hp).mpr hppr
        by_cases h1 : block > p ∧ block < nxOf m p
        · rw [if_pos h1, hppr]
        · rcases hstop with h2 | h2
          · exact absurd h2 h1
          · rw [if_neg h1, if_pos h2, hppr]
      · have hnostop := fun hstop =>
          hppr ((freeScan_stop_iff m S block hs hlinks hbmem hmin hb hnot p hp).mp hstop)
        have hc1 : ¬ (block > p ∧ block < nxOf m p) := fun h => hnostop (Or.inl h)
        have hc2 : ¬ (p ≥ nxOf m p ∧ (block > p ∨ block < nxOf m p)) :=
          fun h => hnostop (Or.inr h)
        rw [if_neg hc1, if_neg hc2, hlinks p hp]
        have hq : cycSucc S p ∈ S := cycSucc_mem (List.ne_nil_of_mem hp) p
        have hstep := cycDist_step hs hp hprm hppr
        exact ih (cycSucc S p) hq (by omega)

/-- Common facts for a `memmgr_free` call on a well-formed state: the
scan lands on the address-ordered predecessor `pr`, and the merged
memory differs from the old one only at `block` and `pr`, as
described. -/
theorem free_facts (s : MemMgr) (S : List Nat) (f block : Nat)
    (hwf : WF s S f)
    (hb : poolAddr ≤ block) (hnot : block ∉ S) :
    memmgr_free s (block + 1) = some
      { s with
        hdrs := mergeLower (mergeHigher s.hdrs (predIn S block) block)
          (predIn S block) block,
        freep := some (predIn S block) } ∧
    predIn S block ∈ S ∧ predIn S block < block ∧
    (∀ c ∈ S, c < block → c ≤ predIn S block) ∧
    cycSucc S (predIn S block) ∈ S ∧
    ((block < cycSucc S (predIn S block) ∧
        ∀ c ∈ S, predIn S block < c → cycSucc S (predIn S block) ≤ c) ∨
      (cycSucc S (predIn S block) = baseAddr ∧ ∀ c ∈ S, c ≤ predIn S block)) ∧
    readHdr (mergeLower (mergeHigher s.hdrs (predIn S block) block)
        (predIn S block) block) block =
      (if block + szOf s.hdrs block = cycSucc S (predIn S block) then
        (⟨cycSucc S (cycSucc S (predIn S block)),
          szOf s.hdrs block + szOf s.hdrs (cycSucc S (predIn S block))⟩ : Header)
       else (⟨cycSucc S (predIn S block), szOf s.hdrs block⟩ : Header)) ∧
    readHdr (mergeLower (mergeHigher s.hdrs (predIn S block) block)
        (predIn S block) block) (predIn S block) =
      (if predIn S block + szOf s.hdrs (predIn S block) = block then
        (⟨(if block + szOf s.hdrs block = cycSucc S (predIn S block) then
            cycSucc S (cycSucc S (predIn S block)) else cycSucc S (predIn S block)),
          szOf s.hdrs (predIn S block) +
            (if block + szOf s.hdrs block = cycSucc S (predIn S block) then
              szOf s.hdrs block + szOf s.hdrs (cycSucc S (predIn S block))
             else szOf s.hdrs block)⟩ : Header)
       else (⟨block, szOf s.hdrs (predIn S block)⟩ : Header)) ∧
    (∀ a, a ≠ block → a ≠ predIn S block →
      readHdr (mergeLower (mergeHigher s.hdrs (predIn S block) block)
        (predIn S block) block) a = readHdr s.hdrs a) ∧
    (∀ b, b ∈ (mergeLower (mergeHigher s.hdrs (predIn S block) block)
        (predIn S block) block).map Prod.fst ↔
      b = predIn S block ∨ b = block ∨ b ∈ s.hdrs.map Prod.fst) ∧
    ((mergeLower (mergeHigher s.hdrs (predIn S block) block)
        (predIn S block) block).map Prod.fst).Nodup := by
  have hmin := WF_base_min hwf
  have hheadD := WF_headD hwf
  have hlen := WF_len hwf
  obtain ⟨hsort, hfmem, hfr, hlinks, hbmem, hbsize, hlower, hboundS, hsep,
    hkeys, hknodup, halign, hcb, hps⟩ := hwf
  have hblock2 : 2 ≤ block := by simp only [poolAddr] at hb; exact hb
  have hbase_lt : baseAddr < block := by simp only [baseAddr]; omega
  obtain ⟨hprm, hprlt⟩ := predIn_mem S block ⟨baseAddr, hbmem, hbase_lt⟩
  have hprmax : ∀ c ∈ S, c < block → c ≤ predIn S block :=
    fun c hc h => predIn_ge S block c hc h
  have hpnm : cycSucc S (predIn S block) ∈ S :=
    cycSucc_mem (List.ne_nil_of_mem hbmem) _
  have hprb : predIn S block ≠ block := by omega
  have hpnb : cycSucc S (predIn S block) ≠ block := fun he => hnot (he ▸ hpnm)
  have hdi : (block < cycSucc S (predIn S block) ∧
      ∀ c ∈ S, predIn S block < c → cycSucc S (predIn S block) ≤ c) ∨
      (cycSucc S (predIn S block) = baseAddr ∧ ∀ c ∈ S, c ≤ predIn S block) := by
    by_cases habove : ∃ c ∈ S, block < c
    · left
      obtain ⟨c0, hc0, hbc0⟩ := habove
      have hle : ∀ c ∈ S, predIn S block < c → cycSucc S (predIn S block) ≤ c :=
        fun c hc h => (cycSucc_least hsort hc h).2
      refine ⟨?_, hle⟩
      have hgt : predIn S block < cycSucc S (predIn S block) :=
        (cycSucc_least hsort hc0 (by omega)).1
      rcases Nat.lt_trichotomy (cycSucc S (predIn S block)) block with h | h | h
      · have := hprmax _ hpnm h; omega
      · exact absurd h hpnb
      · exact h
    · right
      push_neg at habove
      have hple : ∀ c ∈ S, c ≤ predIn S block := by
        intro c hc
        have h1 := habove c hc
        have h2 : c ≠ block := fun he => hnot (he ▸ hc)
        exact hprmax c hc (by omega)
      have h3 := cycSucc_of_forall_le hple
      rw [hheadD] at h3
      exact ⟨h3, hple⟩
  have hscan : freeScan s.hdrs block (s.hdrs.length + 1) f = some (predIn S block) :=
    freeScan_finds s.hdrs S block hsort hlinks hbmem hmin hb hnot _ f hfmem
      (by have := cycDist_le_length S f (predIn S block); omega)
  have hrun : memmgr_free s (block + 1) = some
      { s with
        hdrs := mergeLower (mergeHigher s.hdrs (predIn S block) block)
          (predIn S block) block,
        freep := some (predIn S block) } := by
    simp only [memmgr_free, hfr, Nat.add_sub_cancel, hscan]
  have hnxpr : nxOf s.hdrs (predIn S block) = cycSucc S (predIn S block) :=
    hlinks _ hprm
  have hnb : nxOf s.hdrs (predIn S block) ≠ block := by rw [hnxpr]; exact hpnb
  obtain ⟨hmhb, hmho⟩ := mergeHigher_reads s.hdrs (predIn S block) block hprb hnb
  rw [hnxpr] at hmhb
  rw [hlinks _ hpnm] at hmhb
  obtain ⟨hmlp, hmlo⟩ :=
    mergeLower_reads (mergeHigher s.hdrs (predIn S block) block) (predIn S block)
      block hprb
  have hmhpr : readHdr (mergeHigher s.hdrs (predIn S block) block) (predIn S block)
      = readHdr s.hdrs (predIn S block) := hmho _ hprb
  have hszmh : szOf (mergeHigher s.hdrs (predIn S block) block) (predIn S block)
      = szOf s.hdrs (predIn S block) := by
    rw [szOf, hmhpr]; rfl
  have hnxmhb : nxOf (mergeHigher s.hdrs (predIn S block) block) block
      = (if block + szOf s.hdrs block = cycSucc S (predIn S block) then
          cycSucc S (cycSucc S (predIn S block)) else cycSucc S (predIn S block)) := by
    rw [nxOf, hmhb]
    split <;> rfl
  have hszmhb : szOf (mergeHigher s.hdrs (predIn S block) block) block
      = (if block + szOf s.hdrs block = cycSucc S (predIn S block) then
          szOf s.hdrs block + szOf s.hdrs (cycSucc S (predIn S block))
         else szOf s.hdrs block) := by
    rw [szOf, hmhb]
    split <;> rfl
  rw [hszmh] at hmlp
  rw [hnxmhb, hszmhb] at hmlp
  refine ⟨hrun, hprm, hprlt, hprmax, hpnm, hdi, ?_, hmlp, ?_, ?_, ?_⟩
  · rw [hmlo block (fun he => hprb he.symm), hmhb]
  · intro a hab hapr
    rw [hmlo a hapr, hmho a hab]
  · intro b
    rw [keys_mergeLower, keys_mergeHigher]
  · exact knodup_mergeLower _ _ _ (knodup_mergeHigher _ _ _ hknodup)

/-- The conclusion of the `memmgr_free` characterization, shared by
the four merge cases. -/
def FreeSpecConcl (s : MemMgr) (S : List Nat) (block : Nat)
    (s1 : MemMgr) (S1 : List Nat) : Prop :=
  memmgr_free s (block + 1) = some s1 ∧
  WF s1 S1 (predIn S block) ∧
  s1.POOL_SIZE = s.POOL_SIZE ∧
  s1.pool_free_pos = s.pool_free_pos ∧
  s1.data = s.data ∧
  (∀ a, a ≠ block → a ≠ predIn S block → readHdr s1.hdrs a = readHdr s.hdrs a) ∧
  (∃ cov, cov ∈ S1 ∧ cov ≤ block ∧
    block + szOf s.hdrs block ≤ cov + szOf s1.hdrs cov ∧
    (∀ a ∈ S1, a ≠ cov → szOf s1.hdrs a = szOf s.hdrs a ∧ a ∈ S)) ∧
  (∀ a ∈ S1, ∀ x, a ≤ x → x < a + szOf s1.hdrs a →
    (∃ c ∈ S, c ≤ x ∧ x < c + szOf s.hdrs c) ∨
    (block ≤ x ∧ x < block + szOf s.hdrs block))

theorem memmgr_free_spec_NN (s : MemMgr) (S : List Nat) (f block : Nat)
    (hwf : WF s S f)
    (hb : poolAddr ≤ block) (hnot : block ∉ S)
    (hbs : 1 ≤ szOf s.hdrs block)
    (hbound : block + szOf s.hdrs block ≤ poolAddr + s.pool_free_pos / hdrSize)
    (hdisj : ∀ c ∈ S, c + szOf s.hdrs c ≤ block ∨ block + szOf s.hdrs block ≤ c)
    (hc1 : ¬ (block + szOf s.hdrs block = cycSucc S (predIn S block)))
    (hc2 : ¬ (predIn S block + szOf s.hdrs (predIn S block) = block)) :
    FreeSpecConcl s S block
      { s with
        hdrs := mergeLower (mergeHigher s.hdrs (predIn S block) block)
          (predIn S block) block,
        freep := some (predIn S block) }
      (insAsc block S) := by
  obtain ⟨hrun, hprm, hprlt, hprmax, hpnm, hdi, hMb, hMpr, hMo, hMkeys, hMnd⟩ :=
    free_facts s S f block hwf hb hnot
  rw [if_neg hc1] at hMb
  rw [if_neg hc2] at hMpr
  have hmin := WF_base_min hwf
  have hheadD := WF_headD hwf
  obtain ⟨hsort, hfmem, hfr, hlinks, hbmem, hbsize, hlower, hboundS, hsep,
    hkeys, hknodup, halign, hcb, hps⟩ := hwf
  have hblock2 : 2 ≤ block := by simp only [poolAddr] at hb; exact hb
  have hbase_lt : baseAddr < block := by simp only [baseAddr]; omega
  -- reads of the merged memory
  have hszb : szOf (mergeLower (mergeHigher s.hdrs (predIn S block) block)
      (predIn S block) block) block = szOf s.hdrs block := by
    rw [szOf, hMb]
  have hnxb : nxOf (mergeLower (mergeHigher s.hdrs (predIn S block) block)
      (predIn S block) block) block = cycSucc S (predIn S block) := by
    rw [nxOf, hMb]
  have hszpr : szOf (mergeLower (mergeHigher s.hdrs (predIn S block) block)
      (predIn S block) block) (predIn S block) = szOf s.hdrs (predIn S block) := by
    rw [szOf, hMpr]
  have hnxpr2 : nxOf (mergeLower (mergeHigher s.hdrs (predIn S block) block)
      (predIn S block) block) (predIn S block) = block := by
    rw [nxOf, hMpr]
  have hszS : ∀ a ∈ S, szOf (mergeLower (mergeHigher s.hdrs (predIn S block) block)
      (predIn S block) block) a = szOf s.hdrs a := by
    intro a ha
    by_cases hap : a = predIn S block
    · rw [hap]; exact hszpr
    · rw [szOf, hMo a (fun he => hnot (he ▸ ha)) hap]
      rfl
  have hS1sorted : (insAsc block S).Sorted (· < ·) := insAsc_sorted hsort hnot
  have hS1min : ∀ c ∈ insAsc block S, baseAddr ≤ c := by
    intro c hc
    rcases mem_insAsc.mp hc with rfl | hc
    · omega
    · exact hmin c hc
  have hS1headD : (insAsc block S).headD 0 = baseAddr :=
    headD_eq_base hS1sorted (mem_insAsc.mpr (Or.inr hbmem)) hS1min
  refine ⟨hrun, ?_, rfl, rfl, rfl, hMo, ?_, ?_⟩
  · -- WF of the result
    refine ⟨hS1sorted, mem_insAsc.mpr (Or.inr hprm), rfl, ?_,
      mem_insAsc.mpr (Or.inr hbmem), ?_, ?_, ?_, ?_, ?_, hMnd, halign, hcb, hps⟩
    · -- links
      intro a ha
      rcases mem_insAsc.mp ha with hab | haS
      · -- a is the freed block: its next points at pn
        subst a
        rw [hnxb]
        rcases hdi with ⟨hpn_gt, hpn_least⟩ | ⟨hpn_base, hall_le⟩
        · refine (cycSucc_eq_of hS1sorted (mem_insAsc.mpr (Or.inr hpnm)) hpn_gt ?_).symm
          intro c hc hbc
          rcases mem_insAsc.mp hc with hcb | hcS
          · omega
          · exact hpn_least c hcS (by omega)
        · have hall : ∀ c ∈ insAsc block S, c ≤ block := by
            intro c hc
            rcases mem_insAsc.mp hc with hcb | hcS
            · omega
            · have := hall_le c hcS; omega
          rw [cycSucc_of_forall_le hall, hS1headD, hpn_base]
      · by_cases hap : a = predIn S block
        · -- the predecessor now points at the freed block
          rw [hap, hnxpr2]
          refine (cycSucc_eq_of hS1sorted (mem_insAsc.mpr (Or.inl rfl)) hprlt ?_).symm
          intro c hc hpc
          rcases mem_insAsc.mp hc with hcb | hcS
          · omega
          · rcases hdi with ⟨hpn_gt, hpn_least⟩ | ⟨hpn_base, hall_le⟩
            · have := hpn_least c hcS hpc; omega
            · have := hall_le c hcS; omega
        · -- any other free block keeps its successor
          have hanb : a ≠ block := fun he => hnot (he ▸ haS)
          rw [nxOf, hMo a hanb hap]
          have h0 : nxOf s.hdrs a = cycSucc S a := hlinks a haS
          rw [nxOf] at h0
          rw [h0]
          by_cases habA : ∃ c ∈ S, a < c
          · obtain ⟨c0, hc0, hac0⟩ := habA
            have hv1 : a < cycSucc S a := (cycSucc_least hsort hc0 hac0).1
            have hvle : ∀ c ∈ S, a < c → cycSucc S a ≤ c :=
              fun c hc h => (cycSucc_least hsort hc h).2
            have hvm : cycSucc S a ∈ S := cycSucc_mem (List.ne_nil_of_mem haS) a
            refine (cycSucc_eq_of hS1sorted (mem_insAsc.mpr (Or.inr hvm)) hv1 ?_).symm
            intro c hc hac
            rcases mem_insAsc.mp hc with hcb | hcS
            · have h2 : a ≤ predIn S block := hprmax a haS (by omega)
              have h3 : a < predIn S block := by omega
              have := hvle _ hprm h3
              omega
            · exact hvle c hcS hac
          · push_neg at habA
            have h1 : cycSucc S a = S.headD 0 := cycSucc_of_forall_le habA
            have hba : block < a := by
              rcases Nat.lt_trichotomy block a with h | h | h
              · exact h
              · exact absurd (h ▸ haS) hnot
              · have h2 : a ≤ predIn S block := hprmax a haS h
                have h3 := habA _ hprm
                omega
            have hall2 : ∀ c ∈ insAsc block S, c ≤ a := by
              intro c hc
              rcases mem_insAsc.mp hc with hcb | hcS
              · omega
              · exact habA c hcS
            rw [cycSucc_of_forall_le hall2, hS1headD, h1, hheadD]
    · -- base block still has size 0
      by_cases hbp : baseAddr = predIn S block
      · rw [hbp, hszpr, ← hbp]; exact hbsize
      · rw [szOf, hMo baseAddr (by omega) hbp]
        exact hbsize
    · -- pool blocks start at poolAddr with positive size
      intro a ha hanb
      rcases mem_insAsc.mp ha with rfl | haS
      · rw [hszb]; exact ⟨hb, hbs⟩
      · rw [hszS a haS]; exact hlower a haS hanb
    · -- all blocks inside the carved pool
      intro a ha
      rcases mem_insAsc.mp ha with rfl | haS
      · rw [hszb]; exact hbound
      · rw [hszS a haS]; exact hboundS a haS
    · -- pairwise separation
      intro a ha b hb2 hab
      rcases mem_insAsc.mp ha with rfl | haS
      · rcases mem_insAsc.mp hb2 with rfl | hbS
        · omega
        · rw [hszb]
          rcases hdisj b hbS with h | h
          · have := hlower b hbS (by omega)
            omega
          · exact h
      · rcases mem_insAsc.mp hb2 with rfl | hbS
        · rw [hszS a haS]
          rcases hdisj a haS with h | h
          · exact h
          · omega
        · rw [hszS a haS]
          exact hsep a haS b hbS hab
    · -- keys
      intro a ha
      rcases mem_insAsc.mp ha with rfl | haS
      · exact (hMkeys a).mpr (Or.inr (Or.inl rfl))
      · exact (hMkeys a).mpr (Or.inr (Or.inr (hkeys a haS)))
  · -- the freed block itself covers the freed range
    refine ⟨block, mem_insAsc.mpr (Or.inl rfl), Nat.le_refl _, by rw [hszb], ?_⟩
    intro a ha hanb
    rcases mem_insAsc.mp ha with rfl | haS
    · exact absurd rfl hanb
    · exact ⟨hszS a haS, haS⟩
  · -- every new free interval is an old one or the freed block
    intro a ha x hax hx
    rcases mem_insAsc.mp ha with rfl | haS
    · rw [hszb] at hx
      exact Or.inr ⟨hax, hx⟩
    · rw [hszS a haS] at hx
      exact Or.inl ⟨a, haS, hax, hx⟩

theorem memmgr_free_spec_NY (s : MemMgr) (S : List Nat) (f block : Nat)
    (hwf : WF s S f)
    (hb : poolAddr ≤ block) (hnot : block ∉ S)
    (hbs : 1 ≤ szOf s.hdrs block)
    (hbound : block + szOf s.hdrs block ≤ poolAddr + s.pool_free_pos / hdrSize)
    (hdisj : ∀ c ∈ S, c + szOf s.hdrs c ≤ block ∨ block + szOf s.hdrs block ≤ c)
    (hc1 : ¬ (block + szOf s.hdrs block = cycSucc S (predIn S block)))
    (hc2 : predIn S block + szOf s.hdrs (predIn S block) = block) :
    FreeSpecConcl s S block
      { s with
        hdrs := mergeLower (mergeHigher s.hdrs (predIn S block) block)
          (predIn S block) block,
        freep := some (predIn S block) }
      S := by
  obtain ⟨hrun, hprm, hprlt, hprmax, hpnm, hdi, hMb, hMpr, hMo, hMkeys, hMnd⟩ :=
    free_facts s S f block hwf hb hnot
  simp only [if_neg hc1] at hMb hMpr
  simp only [if_pos hc2] at hMpr
  have hmin := WF_base_min hwf
  have hheadD := WF_headD hwf
  obtain ⟨hsort, hfmem, hfr, hlinks, hbmem, hbsize, hlower, hboundS, hsep,
    hkeys, hknodup, halign, hcb, hps⟩ := hwf
  have hblock2 : 2 ≤ block := by simp only [poolAddr] at hb; exact hb
  have hbase_lt : baseAddr < block := by simp only [baseAddr]; omega
  have hprnb : predIn S block ≠ baseAddr := by
    intro he
    rw [he, hbsize] at hc2
    omega
  have hminpr : baseAddr ≤ predIn S block := hmin _ hprm
  have hszpr : szOf (mergeLower (mergeHigher s.hdrs (predIn S block) block)
      (predIn S block) block) (predIn S block)
      = szOf s.hdrs (predIn S block) + szOf s.hdrs block := by
    rw [szOf, hMpr]
  have hnxpr2 : nxOf (mergeLower (mergeHigher s.hdrs (predIn S block) block)
      (predIn S block) block) (predIn S block) = cycSucc S (predIn S block) := by
    rw [nxOf, hMpr]
  have hszS : ∀ a ∈ S, a ≠ predIn S block →
      szOf (mergeLower (mergeHigher s.hdrs (predIn S block) block)
        (predIn S block) block) a = szOf s.hdrs a := by
    intro a ha hap
    rw [szOf, hMo a (fun he => hnot (he ▸ ha)) hap]
    rfl
  refine ⟨hrun, ?_, rfl, rfl, rfl, hMo, ?_, ?_⟩
  · -- WF of the result: the sorted list of free blocks is unchanged
    refine ⟨hsort, hprm, rfl, ?_, hbmem, ?_, ?_, ?_, ?_, ?_, hMnd, halign, hcb, hps⟩
    · intro a ha
      by_cases hap : a = predIn S block
      · rw [hap, hnxpr2]
      · rw [nxOf, hMo a (fun he => hnot (he ▸ ha)) hap]
        exact hlinks a ha
    · rw [szOf, hMo baseAddr (by omega) (fun he => hprnb he.symm)]
      exact hbsize
    · intro a ha hanb
      by_cases hap : a = predIn S block
      · rw [hap, hszpr]
        exact ⟨(hlower _ hprm hprnb).1, by omega⟩
      · rw [hszS a ha hap]
        exact hlower a ha hanb
    · intro a ha
      by_cases hap : a = predIn S block
      · rw [hap, hszpr]
        show predIn S block + (szOf s.hdrs (predIn S block) + szOf s.hdrs block)
          ≤ poolAddr + s.pool_free_pos / hdrSize
        omega
      · rw [hszS a ha hap]
        have h2 := hboundS a ha
        show a + szOf s.hdrs a ≤ poolAddr + s.pool_free_pos / hdrSize
        exact h2
    · intro a ha b hb2 hab
      by_cases hap : a = predIn S block
      · rw [hap, hszpr]
        rcases hdisj b hb2 with h | h
        · have hblt : b < block := by
            have := hlower b hb2 (by omega)
            omega
          have := hprmax b hb2 hblt
          omega
        · omega
      · rw [hszS a ha hap]
        exact hsep a ha b hb2 hab
    · intro a ha
      exact (hMkeys a).mpr (Or.inr (Or.inr (hkeys a ha)))
  · -- the grown predecessor covers the freed range
    refine ⟨predIn S block, hprm, by omega, by rw [hszpr]; omega, ?_⟩
    intro a ha hap
    exact ⟨hszS a ha hap, ha⟩
  · intro a ha x hax hx
    by_cases hap : a = predIn S block
    · rw [hap, hszpr] at hx
      rw [hap] at hax
      by_cases hxb : x < block
      · exact Or.inl ⟨predIn S block, hprm, hax, by omega⟩
      · exact Or.inr ⟨by omega, by omega⟩
    · rw [hszS a ha hap] at hx
      exact Or.inl ⟨a, ha, hax, hx⟩

theorem memmgr_free_spec_YN (s : MemMgr) (S : List Nat) (f block : Nat)
    (hwf : WF s S f)
    (hb : poolAddr ≤ block) (hnot : block ∉ S)
    (hbs : 1 ≤ szOf s.hdrs block)
    (hbound : block + szOf s.hdrs block ≤ poolAddr + s.pool_free_pos / hdrSize)
    (hdisj : ∀ c ∈ S, c + szOf s.hdrs c ≤ block ∨ block + szOf s.hdrs block ≤ c)
    (hc1 : block + szOf s.hdrs block = cycSucc S (predIn S block))
    (hc2 : ¬ (predIn S block + szOf s.hdrs (predIn S block) = block)) :
    FreeSpecConcl s S block
      { s with
        hdrs := mergeLower (mergeHigher s.hdrs (predIn S block) block)
          (predIn S block) block,
        freep := some (predIn S block) }
      (insAsc block (delOne (cycSucc S (predIn S block)) S)) := by
  obtain ⟨hrun, hprm, hprlt, hprmax, hpnm, hdi, hMb, hMpr, hMo, hMkeys, hMnd⟩ :=
    free_facts s S f block hwf hb hnot
  simp only [if_pos hc1] at hMb hMpr
  simp only [if_neg hc2] at hMpr
  have hmin := WF_base_min hwf
  have hheadD := WF_headD hwf
  obtain ⟨hsort, hfmem, hfr, hlinks, hbmem, hbsize, hlower, hboundS, hsep,
    hkeys, hknodup, halign, hcb, hps⟩ := hwf
  have hblock2 : 2 ≤ block := by simp only [poolAddr] at hb; exact hb
  have hbase_lt : baseAddr < block := by simp only [baseAddr]; omega
  have hpn_gt : block < cycSucc S (predIn S block) := by omega
  have hpn_least : ∀ c ∈ S, predIn S block < c → cycSucc S (predIn S block) ≤ c := by
    rcases hdi with ⟨_, h⟩ | ⟨hpn_base, _⟩
    · exact h
    · rw [hpn_base] at hpn_gt
      simp only [baseAddr] at hpn_gt
      omega
  have hpnnb : cycSucc S (predIn S block) ≠ baseAddr := by
    simp only [baseAddr]; omega
  -- reads of the merged memory
  have hszb : szOf (mergeLower (mergeHigher s.hdrs (predIn S block) block)
      (predIn S block) block) block
      = szOf s.hdrs block + szOf s.hdrs (cycSucc S (predIn S block)) := by
    rw [szOf, hMb]
  have hnxb : nxOf (mergeLower (mergeHigher s.hdrs (predIn S block) block)
      (predIn S block) block) block
      = cycSucc S (cycSucc S (predIn S block)) := by
    rw [nxOf, hMb]
  have hszpr : szOf (mergeLower (mergeHigher s.hdrs (predIn S block) block)
      (predIn S block) block) (predIn S block) = szOf s.hdrs (predIn S block) := by
    rw [szOf, hMpr]
  have hnxpr2 : nxOf (mergeLower (mergeHigher s.hdrs (predIn S block) block)
      (predIn S block) block) (predIn S block) = block := by
    rw [nxOf, hMpr]
  have hszS : ∀ a ∈ S, szOf (mergeLower (mergeHigher s.hdrs (predIn S block) block)
      (predIn S block) block) a = szOf s.hdrs a := by
    intro a ha
    by_cases hap : a = predIn S block
    · rw [hap]; exact hszpr
    · rw [szOf, hMo a (fun he => hnot (he ▸ ha)) hap]
      rfl
  -- the shape of the new free list
  have hmem1 : ∀ a, a ∈ insAsc block (delOne (cycSucc S (predIn S block)) S) ↔
      a = block ∨ (a ∈ S ∧ a ≠ cycSucc S (predIn S block)) := by
    intro a
    rw [mem_insAsc, mem_delOne]
  have hS1sorted : (insAsc block (delOne (cycSucc S (predIn S block)) S)).Sorted
      (· < ·) :=
    insAsc_sorted (delOne_sorted hsort)
      (fun h => hnot (mem_delOne.mp h).1)
  have hbmem1 : baseAddr ∈ insAsc block (delOne (cycSucc S (predIn S block)) S) :=
    (hmem1 _).mpr (Or.inr ⟨hbmem, fun he => hpnnb he.symm⟩)
  have hS1min : ∀ c ∈ insAsc block (delOne (cycSucc S (predIn S block)) S),
      baseAddr ≤ c := by
    intro c hc
    rcases (hmem1 c).mp hc with hcb | ⟨hcS, _⟩
    · omega
    · exact hmin c hcS
  have hS1headD : (insAsc block (delOne (cycSucc S (predIn S block)) S)).headD 0
      = baseAddr := headD_eq_base hS1sorted hbmem1 hS1min
  refine ⟨hrun, ?_, rfl, rfl, rfl, hMo, ?_, ?_⟩
  · refine ⟨hS1sorted, (hmem1 _).mpr (Or.inr ⟨hprm, by omega⟩), rfl, ?_,
      hbmem1, ?_, ?_, ?_, ?_, ?_, hMnd, halign, hcb, hps⟩
    · -- links
      intro a ha
      rcases (hmem1 a).mp ha with hab | ⟨haS, hapn⟩
      · subst a
        rw [hnxb]
        by_cases habPn : ∃ c ∈ S, cycSucc S (predIn S block) < c
        · obtain ⟨c0, hc0, hpc0⟩ := habPn
          have hw1 : cycSucc S (predIn S block) < cycSucc S (cycSucc S (predIn S block)) :=
            (cycSucc_least hsort hc0 hpc0).1
          have hwle : ∀ c ∈ S, cycSucc S (predIn S block) < c →
              cycSucc S (cycSucc S (predIn S block)) ≤ c :=
            fun c hc h => (cycSucc_least hsort hc h).2
          have hwm : cycSucc S (cycSucc S (predIn S block)) ∈ S :=
            cycSucc_mem (List.ne_nil_of_mem hbmem) _
          refine (cycSucc_eq_of hS1sorted
            ((hmem1 _).mpr (Or.inr ⟨hwm, by omega⟩)) (by omega) ?_).symm
          intro c hc hbc
          rcases (hmem1 c).mp hc with hcb | ⟨hcS, hcpn⟩
          · omega
          · have h2 := hpn_least c hcS (by omega)
            exact hwle c hcS (by omega)
        · push_neg at habPn
          have hw : cycSucc S (cycSucc S (predIn S block)) = S.headD 0 :=
            cycSucc_of_forall_le habPn
          have hall : ∀ c ∈ insAsc block (delOne (cycSucc S (predIn S block)) S),
              c ≤ block := by
            intro c hc
            rcases (hmem1 c).mp hc with hcb | ⟨hcS, hcpn⟩
            · omega
            · have h2 := habPn c hcS
              by_cases hcb2 : block < c
              · have h3 := hpn_least c hcS (by omega)
                omega
              · omega
          rw [cycSucc_of_forall_le hall, hS1headD, hw, hheadD]
      · by_cases hap : a = predIn S block
        · rw [hap, hnxpr2]
          refine (cycSucc_eq_of hS1sorted ((hmem1 _).mpr (Or.inl rfl)) hprlt ?_).symm
          intro c hc hpc
          rcases (hmem1 c).mp hc with hcb | ⟨hcS, hcpn⟩
          · omega
          · have := hpn_least c hcS hpc
            omega
        · have hanb : a ≠ block := fun he => hnot (he ▸ haS)
          rw [nxOf, hMo a hanb hap]
          have h0 : nxOf s.hdrs a = cycSucc S a := hlinks a haS
          rw [nxOf] at h0
          rw [h0]
          have hvpn : cycSucc S a ≠ cycSucc S (predIn S block) := by
            intro he
            exact hap (cycSucc_inj hsort haS hprm he)
          by_cases habA : ∃ c ∈ S, a < c
          · obtain ⟨c0, hc0, hac0⟩ := habA
            have hv1 : a < cycSucc S a := (cycSucc_least hsort hc0 hac0).1
            have hvle : ∀ c ∈ S, a < c → cycSucc S a ≤ c :=
              fun c hc h => (cycSucc_least hsort hc h).2
            have hvm : cycSucc S a ∈ S := cycSucc_mem (List.ne_nil_of_mem haS) a
            refine (cycSucc_eq_of hS1sorted
              ((hmem1 _).mpr (Or.inr ⟨hvm, hvpn⟩)) hv1 ?_).symm
            intro c hc hac
            rcases (hmem1 c).mp hc with hcb | ⟨hcS, hcpn⟩
            · have h2 : a ≤ predIn S block := hprmax a haS (by omega)
              have h3 : a < predIn S block := by omega
              have := hvle _ hprm h3
              omega
            · exact hvle c hcS hac
          · push_neg at habA
            have h1 : cycSucc S a = S.headD 0 := cycSucc_of_forall_le habA
            have hba : block < a := by
              have h2 := habA _ hpnm
              omega
            have hall2 : ∀ c ∈ insAsc block (delOne (cycSucc S (predIn S block)) S),
                c ≤ a := by
              intro c hc
              rcases (hmem1 c).mp hc with hcb | ⟨hcS, hcpn⟩
              · omega
              · exact habA c hcS
            rw [cycSucc_of_forall_le hall2, hS1headD, h1, hheadD]
    · -- base size
      have := hszS baseAddr hbmem
      rw [this]
      exact hbsize
    · -- lower bounds
      intro a ha hanb
      rcases (hmem1 a).mp ha with hab | ⟨haS, _⟩
      · subst a
        rw [hszb]
        exact ⟨hb, by omega⟩
      · rw [hszS a haS]
        exact hlower a haS hanb
    · -- bounded by the cursor
      intro a ha
      rcases (hmem1 a).mp ha with hab | ⟨haS, _⟩
      · subst a
        rw [hszb]
        have h2 := hboundS _ hpnm
        show block + (szOf s.hdrs block + szOf s.hdrs (cycSucc S (predIn S block)))
          ≤ poolAddr + s.pool_free_pos / hdrSize
        omega
      · rw [hszS a haS]
        have h2 := hboundS a haS
        show a + szOf s.hdrs a ≤ poolAddr + s.pool_free_pos / hdrSize
        exact h2
    · -- separation
      intro a ha b hb2 hab
      rcases (hmem1 a).mp ha with hab2 | ⟨haS, hapn⟩
      · subst a
        rcases (hmem1 b).mp hb2 with hbb | ⟨hbS, hbpn⟩
        · omega
        · rw [hszb]
          have h2 := hpn_least b hbS (by omega)
          have h3 := hsep _ hpnm b hbS (by omega)
          omega
      · rcases (hmem1 b).mp hb2 with hbb | ⟨hbS, hbpn⟩
        · rw [hszS a haS]
          rcases hdisj a haS with h | h
          · omega
          · omega
        · rw [hszS a haS]
          exact hsep a haS b hbS hab
    · -- keys
      intro a ha
      rcases (hmem1 a).mp ha with hab | ⟨haS, _⟩
      · exact (hMkeys a).mpr (Or.inr (Or.inl hab))
      · exact (hMkeys a).mpr (Or.inr (Or.inr (hkeys a haS)))
  · -- the merged block at `block` covers the freed range
    refine ⟨block, (hmem1 _).mpr (Or.inl rfl), Nat.le_refl _, by rw [hszb]; omega, ?_⟩
    intro a ha hanb
    rcases (hmem1 a).mp ha with hab | ⟨haS, _⟩
    · exact absurd hab hanb
    · exact ⟨hszS a haS, haS⟩
  · intro a ha x hax hx
    rcases (hmem1 a).mp ha with hab | ⟨haS, _⟩
    · subst a
      rw [hszb] at hx
      by_cases hxb : x < block + szOf s.hdrs block
      · exact Or.inr ⟨hax, hxb⟩
      · exact Or.inl ⟨cycSucc S (predIn S block), hpnm, by omega, by omega⟩
    · rw [hszS a haS] at hx
      exact Or.inl ⟨a, haS, hax, hx⟩

theorem memmgr_free_spec_YY (s : MemMgr) (S : List Nat) (f block : Nat)
    (hwf : WF s S f)
    (hb : poolAddr ≤ block) (hnot : block ∉ S)
    (hbs : 1 ≤ szOf s.hdrs block)
    (hbound : block + szOf s.hdrs block ≤ poolAddr + s.pool_free_pos / hdrSize)
    (hdisj : ∀ c ∈ S, c + szOf s.hdrs c ≤ block ∨ block + szOf s.hdrs block ≤ c)
    (hc1 : block + szOf s.hdrs block = cycSucc S (predIn S block))
    (hc2 : predIn S block + szOf s.hdrs (predIn S block) = block) :
    FreeSpecConcl s S block
      { s with
        hdrs := mergeLower (mergeHigher s.hdrs (predIn S block) block)
          (predIn S block) block,
        freep := some (predIn S block) }
      (delOne (cycSucc S (predIn S block)) S) := by
  obtain ⟨hrun, hprm, hprlt, hprmax, hpnm, hdi, hMb, hMpr, hMo, hMkeys, hMnd⟩ :=
    free_facts s S f block hwf hb hnot
  simp only [if_pos hc1] at hMb hMpr
  simp only [if_pos hc2] at hMpr
  have hmin := WF_base_min hwf
  have hheadD := WF_headD hwf
  obtain ⟨hsort, hfmem, hfr, hlinks, hbmem, hbsize, hlower, hboundS, hsep,
    hkeys, hknodup, halign, hcb, hps⟩ := hwf
  have hblock2 : 2 ≤ block := by simp only [poolAddr] at hb; exact hb
  have hbase_lt : baseAddr < block := by simp only [baseAddr]; omega
  have hpn_gt : block < cycSucc S (predIn S block) := by omega
  have hpn_least : ∀ c ∈ S, predIn S block < c → cycSucc S (predIn S block) ≤ c := by
    rcases hdi with ⟨_, h⟩ | ⟨hpn_base, _⟩
    · exact h
    · rw [hpn_base] at hpn_gt
      simp only [baseAddr] at hpn_gt
      omega
  have hpnnb : cycSucc S (predIn S block) ≠ baseAddr := by
    simp only [baseAddr]; omega
  have hprnb : predIn S block ≠ baseAddr := by
    intro he
    rw [he, hbsize] at hc2
    omega
  -- reads of the merged memory
  have hszpr : szOf (mergeLower (mergeHigher s.hdrs (predIn S block) block)
      (predIn S block) block) (predIn S block)
      = szOf s.hdrs (predIn S block)
        + (szOf s.hdrs block + szOf s.hdrs (cycSucc S (predIn S block))) := by
    rw [szOf, hMpr]
  have hnxpr2 : nxOf (mergeLower (mergeHigher s.hdrs (predIn S block) block)
      (predIn S block) block) (predIn S block)
      = cycSucc S (cycSucc S (predIn S block)) := by
    rw [nxOf, hMpr]
  have hszS : ∀ a ∈ S, a ≠ predIn S block →
      szOf (mergeLower (mergeHigher s.hdrs (predIn S block) block)
      (predIn S block) block) a = szOf s.hdrs a := by
    intro a ha hap
    rw [szOf, hMo a (fun he => hnot (he ▸ ha)) hap]
    rfl
  have hnxS : ∀ a ∈ S, a ≠ predIn S block →
      nxOf (mergeLower (mergeHigher s.hdrs (predIn S block) block)
      (predIn S block) block) a = nxOf s.hdrs a := by
    intro a ha hap
    rw [nxOf, hMo a (fun he => hnot (he ▸ ha)) hap]
    rfl
  -- the shape of the new free list
  have hmem1 : ∀ a, a ∈ delOne (cycSucc S (predIn S block)) S ↔
      a ∈ S ∧ a ≠ cycSucc S (predIn S block) := by
    intro a
    rw [mem_delOne]
  have hS1sorted : (delOne (cycSucc S (predIn S block)) S).Sorted (· < ·) :=
    delOne_sorted hsort
  have hbmem1 : baseAddr ∈ delOne (cycSucc S (predIn S block)) S :=
    (hmem1 _).mpr ⟨hbmem, fun he => hpnnb he.symm⟩
  have hS1min : ∀ c ∈ delOne (cycSucc S (predIn S block)) S, baseAddr ≤ c := by
    intro c hc
    exact hmin c ((hmem1 c).mp hc).1
  have hS1headD : (delOne (cycSucc S (predIn S block)) S).headD 0 = baseAddr :=
    headD_eq_base hS1sorted hbmem1 hS1min
  have hprm1 : predIn S block ∈ delOne (cycSucc S (predIn S block)) S :=
    (hmem1 _).mpr ⟨hprm, by omega⟩
  refine ⟨hrun, ?_, rfl, rfl, rfl, hMo, ?_, ?_⟩
  · refine ⟨hS1sorted, hprm1, rfl, ?_,
      hbmem1, ?_, ?_, ?_, ?_, ?_, hMnd, halign, hcb, hps⟩
    · -- links
      intro a ha
      obtain ⟨haS, hapn⟩ := (hmem1 a).mp ha
      by_cases hap : a = predIn S block
      · rw [hap, hnxpr2]
        by_cases habPn : ∃ c ∈ S, cycSucc S (predIn S block) < c
        · obtain ⟨c0, hc0, hpc0⟩ := habPn
          have hw1 : cycSucc S (predIn S block) < cycSucc S (cycSucc S (predIn S block)) :=
            (cycSucc_least hsort hc0 hpc0).1
          have hwle : ∀ c ∈ S, cycSucc S (predIn S block) < c →
              cycSucc S (cycSucc S (predIn S block)) ≤ c :=
            fun c hc h => (cycSucc_least hsort hc h).2
          have hwm : cycSucc S (cycSucc S (predIn S block)) ∈ S :=
            cycSucc_mem (List.ne_nil_of_mem hbmem) _
          refine (cycSucc_eq_of hS1sorted
            ((hmem1 _).mpr ⟨hwm, by omega⟩) (by omega) ?_).symm
          intro c hc hpc
          obtain ⟨hcS, hcpn⟩ := (hmem1 c).mp hc
          have := hpn_least c hcS hpc
          exact hwle c hcS (by omega)
        · push_neg at habPn
          have hw : cycSucc S (cycSucc S (predIn S block)) = S.headD 0 :=
            cycSucc_of_forall_le habPn
          have hall : ∀ c ∈ delOne (cycSucc S (predIn S block)) S,
              c ≤ predIn S block := by
            intro c hc
            obtain ⟨hcS, hcpn⟩ := (hmem1 c).mp hc
            by_cases hcp : predIn S block < c
            · have := hpn_least c hcS hcp
              have := habPn c hcS
              omega
            · omega
          rw [cycSucc_of_forall_le hall, hS1headD, hw, hheadD]
      · rw [hnxS a haS hap]
        have h0 : nxOf s.hdrs a = cycSucc S a := hlinks a haS
        rw [h0]
        have hvpn : cycSucc S a ≠ cycSucc S (predIn S block) := by
          intro he
          exact hap (cycSucc_inj hsort haS hprm he)
        by_cases habA : ∃ c ∈ S, a < c
        · obtain ⟨c0, hc0, hac0⟩ := habA
          have hv1 : a < cycSucc S a := (cycSucc_least hsort hc0 hac0).1
          have hvle : ∀ c ∈ S, a < c → cycSucc S a ≤ c :=
            fun c hc h => (cycSucc_least hsort hc h).2
          have hvm : cycSucc S a ∈ S := cycSucc_mem (List.ne_nil_of_mem haS) a
          refine (cycSucc_eq_of hS1sorted
            ((hmem1 _).mpr ⟨hvm, hvpn⟩) hv1 ?_).symm
          intro c hc hac
          obtain ⟨hcS, _⟩ := (hmem1 c).mp hc
          exact hvle c hcS hac
        · push_neg at habA
          have h1 : cycSucc S a = S.headD 0 := cycSucc_of_forall_le habA
          have hall2 : ∀ c ∈ delOne (cycSucc S (predIn S block)) S, c ≤ a := by
            intro c hc
            exact habA c ((hmem1 c).mp hc).1
          rw [cycSucc_of_forall_le hall2, hS1headD, h1, hheadD]
    · -- base size
      rw [hszS baseAddr hbmem (Ne.symm hprnb)]
      exact hbsize
    · -- lower bounds
      intro a ha hanb
      obtain ⟨haS, _⟩ := (hmem1 a).mp ha
      by_cases hap : a = predIn S block
      · subst a
        rw [hszpr]
        have := hlower _ hprm hprnb
        exact ⟨this.1, by omega⟩
      · rw [hszS a haS hap]
        exact hlower a haS hanb
    · -- bounded by the cursor
      intro a ha
      obtain ⟨haS, _⟩ := (hmem1 a).mp ha
      by_cases hap : a = predIn S block
      · subst a
        rw [hszpr]
        have h2 := hboundS _ hpnm
        show predIn S block + (szOf s.hdrs (predIn S block)
          + (szOf s.hdrs block + szOf s.hdrs (cycSucc S (predIn S block))))
          ≤ poolAddr + s.pool_free_pos / hdrSize
        omega
      · rw [hszS a haS hap]
        have h2 := hboundS a haS
        show a + szOf s.hdrs a ≤ poolAddr + s.pool_free_pos / hdrSize
        exact h2
    · -- separation
      intro a ha b hb2 hab
      obtain ⟨haS, hapn⟩ := (hmem1 a).mp ha
      obtain ⟨hbS, hbpn⟩ := (hmem1 b).mp hb2
      by_cases hap : a = predIn S block
      · subst a
        rw [hszpr]
        have h2 := hpn_least b hbS (by omega)
        have h3 := hsep _ hpnm b hbS (by omega)
        omega
      · rw [hszS a haS hap]
        by_cases hbp : b = predIn S block
        · exact hsep a haS b hbS hab
        · exact hsep a haS b hbS hab
    · -- keys
      intro a ha
      exact (hMkeys a).mpr (Or.inr (Or.inr (hkeys a ((hmem1 a).mp ha).1)))
  · -- the merged block at the predecessor covers the freed range
    refine ⟨predIn S block, hprm1, by omega, by rw [hszpr]; omega, ?_⟩
    intro a ha hanp
    obtain ⟨haS, _⟩ := (hmem1 a).mp ha
    exact ⟨hszS a haS hanp, haS⟩
  · intro a ha x hax hx
    obtain ⟨haS, _⟩ := (hmem1 a).mp ha
    by_cases hap : a = predIn S block
    · subst a
      rw [hszpr] at hx
      by_cases hx1 : x < predIn S block + szOf s.hdrs (predIn S block)
      · exact Or.inl ⟨predIn S block, hprm, hax, hx1⟩
      · by_cases hx2 : x < block + szOf s.hdrs block
        · exact Or.inr ⟨by omega, hx2⟩
        · exact Or.inl ⟨cycSucc S (predIn S block), hpnm, by omega, by omega⟩
    · rw [hszS a haS hap] at hx
      exact Or.inl ⟨a, haS, hax, hx⟩

/-- Full characterization of `memmgr_free` on a well-formed state:
whatever merge cases fire, the call succeeds, the result is
well-formed over some sorted free list with the next-fit pointer at
the insertion predecessor, and some free block covers the freed
range without leaking memory outside the old free blocks and the
freed one. -/
theorem memmgr_free_spec (s : MemMgr) (S : List Nat) (f block : Nat)
    (hwf : WF s S f)
    (hb : poolAddr ≤ block) (hnot : block ∉ S)
    (hbs : 1 ≤ szOf s.hdrs block)
    (hbound : block + szOf s.hdrs block ≤ poolAddr + s.pool_free_pos / hdrSize)
    (hdisj : ∀ c ∈ S, c + szOf s.hdrs c ≤ block ∨ block + szOf s.hdrs block ≤ c) :
    ∃ s1 S1, FreeSpecConcl s S block s1 S1 := by
  by_cases hc1 : block + szOf s.hdrs block = cycSucc S (predIn S block)
  · by_cases hc2 : predIn S block + szOf s.hdrs (predIn S block) = block
    · exact ⟨_, _, memmgr_free_spec_YY s S f block hwf hb hnot hbs hbound hdisj hc1 hc2⟩
    · exact ⟨_, _, memmgr_free_spec_YN s S f block hwf hb hnot hbs hbound hdisj hc1 hc2⟩
  · by_cases hc2 : predIn S block + szOf s.hdrs (predIn S block) = block
    · exact ⟨_, _, memmgr_free_spec_NY s S f block hwf hb hnot hbs hbound hdisj hc1 hc2⟩
    · exact ⟨_, _, memmgr_free_spec_NN s S f block hwf hb hnot hbs hbound hdisj hc1 hc2⟩

/-! ### The walk of the allocation loop -/

theorem cycSucc_ne_self {S : List Nat} {x y : Nat} (hs : S.Sorted (· < ·))
    (hx : x ∈ S) (hy : y ∈ S) (hxy : y ≠ x) : cycSucc S x ≠ x := by
  by_cases hab : ∃ c ∈ S, x < c
  · obtain ⟨c, hc, hxc⟩ := hab
    have := (cycSucc_least hs hc hxc).1
    omega
  · push_neg at hab
    have h1 : cycSucc S x = S.headD 0 := cycSucc_of_forall_le hab
    have h2 := headD_min hs y hy
    have h3 := hab y hy
    omega

theorem exists_minBy (F : Nat → Nat) : ∀ (l : List Nat), l ≠ [] →
    ∃ t ∈ l, ∀ c ∈ l, F t ≤ F c := by
  intro l
  induction l with
  | nil => intro h; exact absurd rfl h
  | cons a rest ih =>
      intro _
      cases rest with
      | nil =>
          exact ⟨a, List.mem_cons_self a [], by
            intro c hc
            rcases List.mem_cons.mp hc with h | h
            · rw [h]
            · cases h⟩
      | cons b r =>
          obtain ⟨t, htm, hmin⟩ := ih (List.cons_ne_nil b r)
          by_cases hat : F a ≤ F t
          · refine ⟨a, List.mem_cons_self a _, ?_⟩
            intro c hc
            rcases List.mem_cons.mp hc with h | h
            · rw [h]
            · exact le_trans hat (hmin c h)
          · refine ⟨t, List.mem_cons_of_mem a htm, ?_⟩
            intro c hc
            rcases List.mem_cons.mp hc with h | h
            · rw [h]; omega
            · exact hmin c h

/-- From the position one past `f`, `f` itself is the farthest element:
the allocation loop visits the whole free list before wrapping back. -/
theorem cycDist_from_succ_le {S : List Nat} (hs : S.Sorted (· < ·))
    {f : Nat} (hf : f ∈ S) {c : Nat} (hc : c ∈ S) :
    cycDist S (cycSucc S f) c ≤ cycDist S (cycSucc S f) f := by
  by_cases hcp : cycSucc S f = c
  · rw [cycDist, if_pos hcp]
    exact Nat.zero_le _
  by_cases hfp : cycSucc S f = f
  · exfalso
    exact cycSucc_ne_self hs hf hc (fun he => hcp (hfp.trans he.symm)) hfp
  rw [cycDist, if_neg hcp, cycDist, if_neg hfp]
  refine List.countP_mono_left ?_
  intro x hx hIn
  rw [inCycB_eq] at hIn ⊢
  by_cases hab : ∃ e ∈ S, f < e
  · obtain ⟨e, he, hfe⟩ := hab
    have hfp0 : f < cycSucc S f := (cycSucc_least hs he hfe).1
    by_cases hfx : f < x
    · have h2 := (cycSucc_least hs hx hfx).2
      omega
    · omega
  · push_neg at hab
    have h1 : cycSucc S f = S.headD 0 := cycSucc_of_forall_le hab
    have h2 := headD_min hs x hx
    have h3 := headD_min hs c hc
    have h4 := hab x hx
    have h5 := hab f hf
    omega

/-- Unfolding `allocLoop` at a block big enough for the request:
exact fits are unlinked, oversized blocks are split at the high end. -/
theorem allocLoop_fit_at (s : MemMgr) (nq pv t k : Nat)
    (hfit : szOf s.hdrs t ≥ nq) :
    allocLoop s nq pv t (k + 1) =
      (if szOf s.hdrs t = nq then
        some (some (t + 1),
          { s with hdrs := setNext s.hdrs pv (nxOf s.hdrs t), freep := some pv })
       else
        some (some (t + (szOf s.hdrs t - nq) + 1),
          { s with
            hdrs := setSize (setSize s.hdrs t (szOf s.hdrs t - nq))
              (t + (szOf s.hdrs t - nq)) nq,
            freep := some pv })) := by
  by_cases he : szOf s.hdrs t = nq
  · simp only [allocLoop, if_pos hfit, if_pos he]
  · simp only [allocLoop, if_pos hfit, if_neg he, szOf_setSize_same]

/-- Unfolding `allocLoop` when the wrap-around to `freep` is reached
without a fit: the pool is asked for more memory. -/
theorem allocLoop_pool_at (s : MemMgr) (nq pv f k : Nat)
    (hf : s.freep = some f) (hnofit : szOf s.hdrs f < nq) :
    allocLoop s nq pv f (k + 1) =
      (match get_mem_from_pool s nq with
       | none => none
       | some (none, s1) => some (none, s1)
       | some (some p2, s2) => allocLoop s2 nq p2 (nxOf s2.hdrs p2) k) := by
  have h1 : ¬ szOf s.hdrs f ≥ nq := by omega
  simp only [allocLoop, if_neg h1, hf, if_true]

/-- Unfolding `allocLoop` at an interior block that is too small: the
scan advances along the `next` link. -/
theorem allocLoop_advance (s : MemMgr) (nq f pv p k : Nat)
    (hf : s.freep = some f) (hnofit : szOf s.hdrs p < nq) (hpf : p ≠ f) :
    allocLoop s nq pv p (k + 1) = allocLoop s nq p (nxOf s.hdrs p) k := by
  have h1 : ¬ szOf s.hdrs p ≥ nq := by omega
  have h2 : ¬ some p = s.freep := by
    rw [hf]
    intro he
    exact hpf (Option.some.inj he)
  simp only [allocLoop, if_neg h1, if_neg h2]

/-- The scan, started anywhere on the free list, reaches any target
`t` that is at least as close as the wrap-around point, provided all
strictly earlier blocks are too small; on arrival the previous
pointer is the cyclic predecessor of `t`. -/
theorem allocLoop_reach (s : MemMgr) (S : List Nat) (f nq : Nat)
    (hsort : S.Sorted (· < ·)) (hfr : s.freep = some f) (hfS : f ∈ S)
    (hlinks : ∀ a ∈ S, nxOf s.hdrs a = cycSucc S a)
    (t : Nat) (ht : t ∈ S) :
    ∀ d p pv, p ∈ S → pv ∈ S → cycSucc S pv = p →
      cycDist S p t = d →
      cycDist S p t ≤ cycDist S p f →
      (∀ c ∈ S, cycDist S p c < d → szOf s.hdrs c < nq) →
      ∀ k, ∃ pv2, pv2 ∈ S ∧ cycSucc S pv2 = t ∧
        allocLoop s nq pv p (d + k) = allocLoop s nq pv2 t k := by
  intro d
  induction d with
  | zero =>
      intro p pv hp hpv hsucc hdist _ _ k
      have hpt : p = t := (cycDist_zero_iff ht).mp hdist
      subst hpt
      refine ⟨pv, hpv, hsucc, ?_⟩
      rw [Nat.zero_add]
  | succ d ih =>
      intro p pv hp hpv hsucc hdist hnof hvis k
      have hpt : p ≠ t := by
        intro he
        rw [he, cycDist_self] at hdist
        omega
      have hsz : szOf s.hdrs p < nq := by
        refine hvis p hp ?_
        rw [cycDist_self]
        omega
      have hpf : p ≠ f := by
        intro he
        rw [he] at hnof hdist
        rw [cycDist_self] at hnof
        omega
      have hstep : allocLoop s nq pv p (d + 1 + k) = allocLoop s nq p (nxOf s.hdrs p) (d + k) := by
        have ha : d + 1 + k = (d + k) + 1 := by omega
        rw [ha]
        exact allocLoop_advance s nq f pv p (d + k) hfr hsz hpf
      rw [hlinks p hp] at hstep
      have hpm : cycSucc S p ∈ S := cycSucc_mem (List.ne_nil_of_mem hp) p
      have hdt : cycDist S (cycSucc S p) t = d := by
        have := cycDist_step hsort hp ht hpt
        omega
      have hdf : cycDist S (cycSucc S p) t ≤ cycDist S (cycSucc S p) f := by
        have h1 := cycDist_step hsort hp hfS hpf
        omega
      have hvis2 : ∀ c ∈ S, cycDist S (cycSucc S p) c < d → szOf s.hdrs c < nq := by
        intro c hc hcd
        by_cases hcp : c = p
        · rw [hcp]; exact hsz
        · refine hvis c hc ?_
          have := cycDist_step hsort hp hc (fun he => hcp he.symm)
          omega
      obtain ⟨pv2, h1, h2, h3⟩ := ih (cycSucc S p) p hpm hp rfl hdt hdf hvis2 k
      exact ⟨pv2, h1, h2, hstep.trans h3⟩

/-- Unlinking an exact-fit block keeps the free list well-formed:
the block disappears from the sorted list, and the next-fit pointer
rests on its cyclic predecessor. -/
theorem WF_fitExact (s : MemMgr) (S : List Nat) (f nq pv t : Nat)
    (hwf : WF s S f) (ht : t ∈ S) (hpv : pv ∈ S) (hsucc : cycSucc S pv = t)
    (hnq : 1 ≤ nq) (hfit : szOf s.hdrs t = nq) :
    WF { s with hdrs := setNext s.hdrs pv (nxOf s.hdrs t), freep := some pv }
      (delOne t S) pv := by
  have hmin := WF_base_min hwf
  have hheadD := WF_headD hwf
  obtain ⟨hsort, hfmem, hfr, hlinks, hbmem, hbsize, hlower, hboundS, hsep,
    hkeys, hknodup, halign, hcb, hps⟩ := hwf
  have htb : t ≠ baseAddr := by
    intro he
    rw [he, hbsize] at hfit
    omega
  have hpvt : pv ≠ t := by
    intro he
    rw [he] at hsucc
    exact cycSucc_ne_self hsort ht hbmem (Ne.symm htb) hsucc
  have hpvlt : pv < t ∧ ∀ c ∈ S, pv < c → t ≤ c := by
    by_cases hab : ∃ c ∈ S, pv < c
    · obtain ⟨c, hc, hpc⟩ := hab
      have h1 := cycSucc_least hsort hc hpc
      rw [hsucc] at h1
      refine ⟨h1.1, ?_⟩
      intro e he hpe
      have := (cycSucc_least hsort he hpe).2
      rw [hsucc] at this
      exact this
    · push_neg at hab
      exfalso
      have h1 : cycSucc S pv = S.headD 0 := cycSucc_of_forall_le hab
      rw [hsucc, hheadD] at h1
      exact htb h1
  obtain ⟨hpvlt1, htleast⟩ := hpvlt
  have hmem1 : ∀ a, a ∈ delOne t S ↔ a ∈ S ∧ a ≠ t := fun a => mem_delOne
  have hS1sorted : (delOne t S).Sorted (· < ·) := delOne_sorted hsort
  have hbmem1 : baseAddr ∈ delOne t S := (hmem1 _).mpr ⟨hbmem, fun he => htb he.symm⟩
  have hS1min : ∀ c ∈ delOne t S, baseAddr ≤ c := fun c hc => hmin c ((hmem1 c).mp hc).1
  have hS1headD : (delOne t S).headD 0 = baseAddr := headD_eq_base hS1sorted hbmem1 hS1min
  have hszall : ∀ a, szOf (setNext s.hdrs pv (nxOf s.hdrs t)) a = szOf s.hdrs a :=
    fun a => szOf_setNext s.hdrs pv (nxOf s.hdrs t) a
  refine ⟨hS1sorted, (hmem1 _).mpr ⟨hpv, hpvt⟩, rfl, ?_, hbmem1, ?_, ?_, ?_, ?_, ?_, ?_,
    halign, hcb, hps⟩
  · -- links
    intro a ha
    obtain ⟨haS, hat⟩ := (hmem1 a).mp ha
    by_cases hap : a = pv
    · subst a
      rw [nxOf_setNext_same, hlinks t ht]
      by_cases hab : ∃ c ∈ S, t < c
      · obtain ⟨c0, hc0, htc0⟩ := hab
        have hw1 : t < cycSucc S t := (cycSucc_least hsort hc0 htc0).1
        have hwle : ∀ c ∈ S, t < c → cycSucc S t ≤ c :=
          fun c hc h => (cycSucc_least hsort hc h).2
        have hwm : cycSucc S t ∈ S := cycSucc_mem (List.ne_nil_of_mem ht) t
        refine (cycSucc_eq_of hS1sorted
          ((hmem1 _).mpr ⟨hwm, by omega⟩) (by omega) ?_).symm
        intro c hc hpc
        obtain ⟨hcS, hct⟩ := (hmem1 c).mp hc
        have := htleast c hcS hpc
        exact hwle c hcS (by omega)
      · push_neg at hab
        have hw : cycSucc S t = S.headD 0 := cycSucc_of_forall_le hab
        have hall : ∀ c ∈ delOne t S, c ≤ pv := by
          intro c hc
          obtain ⟨hcS, hct⟩ := (hmem1 c).mp hc
          by_cases hcp : pv < c
          · have := htleast c hcS hcp
            have := hab c hcS
            omega
          · omega
        rw [cycSucc_of_forall_le hall, hS1headD, hw, hheadD]
    · rw [nxOf_setNext_other s.hdrs pv (nxOf s.hdrs t) a hap, hlinks a haS]
      have hvt : cycSucc S a ≠ t := by
        intro he
        rw [← hsucc] at he
        exact hap (cycSucc_inj hsort haS hpv he)
      by_cases habA : ∃ c ∈ S, a < c
      · obtain ⟨c0, hc0, hac0⟩ := habA
        have hv1 : a < cycSucc S a := (cycSucc_least hsort hc0 hac0).1
        have hvle : ∀ c ∈ S, a < c → cycSucc S a ≤ c :=
          fun c hc h => (cycSucc_least hsort hc h).2
        have hvm : cycSucc S a ∈ S := cycSucc_mem (List.ne_nil_of_mem haS) a
        refine (cycSucc_eq_of hS1sorted
          ((hmem1 _).mpr ⟨hvm, hvt⟩) hv1 ?_).symm
        intro c hc hac
        exact hvle c ((hmem1 c).mp hc).1 hac
      · push_neg at habA
        have h1 : cycSucc S a = S.headD 0 := cycSucc_of_forall_le habA
        have hall2 : ∀ c ∈ delOne t S, c ≤ a :=
          fun c hc => habA c ((hmem1 c).mp hc).1
        rw [cycSucc_of_forall_le hall2, hS1headD, h1, hheadD]
  · rw [hszall]
    exact hbsize
  · intro a ha hanb
    rw [hszall]
    exact hlower a ((hmem1 a).mp ha).1 hanb
  · intro a ha
    rw [hszall]
    have := hboundS a ((hmem1 a).mp ha).1
    show a + szOf s.hdrs a ≤ poolAddr + s.pool_free_pos / hdrSize
    exact this
  · intro a ha b hb hab
    rw [hszall]
    exact hsep a ((hmem1 a).mp ha).1 b ((hmem1 b).mp hb).1 hab
  · intro a ha
    exact (keys_hstore s.hdrs pv _ a).mpr (Or.inr (hkeys a ((hmem1 a).mp ha).1))
  · exact knodup_hstore s.hdrs pv _ hknodup

/-- Splitting an oversized block keeps the free list well-formed: the
same sorted list survives with the found block shrunk in place, and
the next-fit pointer rests on the scan's previous position. -/
theorem WF_fitSplit (s : MemMgr) (S : List Nat) (f nq pv t : Nat)
    (hwf : WF s S f) (ht : t ∈ S) (hpv : pv ∈ S)
    (hnq : 1 ≤ nq) (hfit : nq < szOf s.hdrs t) :
    WF { s with
          hdrs := setSize (setSize s.hdrs t (szOf s.hdrs t - nq))
            (t + (szOf s.hdrs t - nq)) nq,
          freep := some pv }
      S pv := by
  have hmin := WF_base_min hwf
  obtain ⟨hsort, hfmem, hfr, hlinks, hbmem, hbsize, hlower, hboundS, hsep,
    hkeys, hknodup, halign, hcb, hps⟩ := hwf
  have htb : t ≠ baseAddr := by
    intro he
    rw [he, hbsize] at hfit
    omega
  have htpt : t ≠ t + (szOf s.hdrs t - nq) := by omega
  have hptnot : ∀ c ∈ S, c ≠ t + (szOf s.hdrs t - nq) := by
    intro c hc he
    by_cases hct : c = t
    · rw [hct] at he
      omega
    · rcases Nat.lt_or_ge c t with h | h
      · have := hsep c hc t ht h
        omega
      · have hct2 : t < c := by omega
        have := hsep t ht c hc hct2
        omega
  have hszc : ∀ c ∈ S, c ≠ t →
      szOf (setSize (setSize s.hdrs t (szOf s.hdrs t - nq))
        (t + (szOf s.hdrs t - nq)) nq) c = szOf s.hdrs c := by
    intro c hc hct
    rw [szOf_setSize_other _ _ _ _ (hptnot c hc), szOf_setSize_other _ _ _ _ hct]
  have hszt : szOf (setSize (setSize s.hdrs t (szOf s.hdrs t - nq))
      (t + (szOf s.hdrs t - nq)) nq) t = szOf s.hdrs t - nq := by
    rw [szOf_setSize_other _ _ _ _ htpt, szOf_setSize_same]
  have hnxall : ∀ c, nxOf (setSize (setSize s.hdrs t (szOf s.hdrs t - nq))
      (t + (szOf s.hdrs t - nq)) nq) c = nxOf s.hdrs c := by
    intro c
    rw [nxOf_setSize, nxOf_setSize]
  refine ⟨hsort, hpv, rfl, ?_, hbmem, ?_, ?_, ?_, ?_, ?_, ?_, halign, hcb, hps⟩
  · intro a ha
    rw [hnxall]
    exact hlinks a ha
  · rw [hszc baseAddr hbmem (fun he => htb he.symm)]
    exact hbsize
  · intro a ha hanb
    by_cases hat : a = t
    · subst a
      rw [hszt]
      exact ⟨(hlower t ht htb).1, by omega⟩
    · rw [hszc a ha hat]
      exact hlower a ha hanb
  · intro a ha
    by_cases hat : a = t
    · subst a
      rw [hszt]
      have := hboundS t ht
      show t + (szOf s.hdrs t - nq) ≤ poolAddr + s.pool_free_pos / hdrSize
      omega
    · rw [hszc a ha hat]
      have := hboundS a ha
      show a + szOf s.hdrs a ≤ poolAddr + s.pool_free_pos / hdrSize
      exact this
  · intro a ha b hb hab
    by_cases hat : a = t
    · subst a
      rw [hszt]
      have := hsep t ht b hb hab
      omega
    · rw [hszc a ha hat]
      exact hsep a ha b hb hab
  · intro a ha
    exact (keys_hstore _ _ _ a).mpr (Or.inr ((keys_hstore _ _ _ a).mpr
      (Or.inr (hkeys a ha))))
  · exact knodup_hstore _ _ _ (knodup_hstore _ _ _ hknodup)

/-- `memmgr_alloc` on a well-formed state with a fitting block: the
next-fit scan starts one past `freep` and stops at the first fitting
block `t`; an exact fit is unlinked and its payload returned, an
oversized block is shrunk in place and its high-address tail
returned.  Either way the state stays well-formed and the cursor
does not move. -/
theorem memmgr_alloc_fit (s : MemMgr) (S : List Nat) (f nbytes t : Nat)
    (hwf : WF s S f) (ht : t ∈ S)
    (hfit : nquantasOf nbytes ≤ szOf s.hdrs t)
    (hfirst : ∀ c ∈ S, nquantasOf nbytes ≤ szOf s.hdrs c →
      cycDist S (cycSucc S f) t ≤ cycDist S (cycSucc S f) c) :
    ∃ pv, pv ∈ S ∧ cycSucc S pv = t ∧
      ((szOf s.hdrs t = nquantasOf nbytes ∧
        memmgr_alloc s nbytes = some (some (t + 1),
          { s with hdrs := setNext s.hdrs pv (nxOf s.hdrs t), freep := some pv }) ∧
        WF { s with hdrs := setNext s.hdrs pv (nxOf s.hdrs t), freep := some pv }
          (delOne t S) pv) ∨
       (nquantasOf nbytes < szOf s.hdrs t ∧
        memmgr_alloc s nbytes =
          some (some (t + (szOf s.hdrs t - nquantasOf nbytes) + 1),
            { s with
              hdrs := setSize (setSize s.hdrs t (szOf s.hdrs t - nquantasOf nbytes))
                (t + (szOf s.hdrs t - nquantasOf nbytes)) (nquantasOf nbytes),
              freep := some pv }) ∧
        WF { s with
              hdrs := setSize (setSize s.hdrs t (szOf s.hdrs t - nquantasOf nbytes))
                (t + (szOf s.hdrs t - nquantasOf nbytes)) (nquantasOf nbytes),
              freep := some pv }
          S pv)) := by
  have hlen := WF_len hwf
  have hsort := hwf.1
  have hfmem := hwf.2.1
  have hfr := hwf.2.2.1
  have hlinks := hwf.2.2.2.1
  have hnq1 : 1 ≤ nquantasOf nbytes := by
    unfold nquantasOf hdrSize
    rw [wordMod_val]
    omega
  have hp0 : cycSucc S f ∈ S := cycSucc_mem (List.ne_nil_of_mem hfmem) f
  have hd : cycDist S (cycSucc S f) t ≤ S.length := cycDist_le_length S _ t
  have hnof : cycDist S (cycSucc S f) t ≤ cycDist S (cycSucc S f) f :=
    cycDist_from_succ_le hsort hfmem ht
  have hvis : ∀ c ∈ S, cycDist S (cycSucc S f) c < cycDist S (cycSucc S f) t →
      szOf s.hdrs c < nquantasOf nbytes := by
    intro c hc hcd
    by_cases h : nquantasOf nbytes ≤ szOf s.hdrs c
    · have := hfirst c hc h
      omega
    · omega
  obtain ⟨k, hk⟩ : ∃ k, allocFuel s
      = cycDist S (cycSucc S f) t + (k + 1) := by
    refine ⟨2 * s.hdrs.length + 7 - cycDist S (cycSucc S f) t, ?_⟩
    unfold allocFuel
    omega
  obtain ⟨pv, hpvm, hpvsucc, hrun⟩ :=
    allocLoop_reach s S f (nquantasOf nbytes) hsort hfr hfmem hlinks t ht
      (cycDist S (cycSucc S f) t) (cycSucc S f) f hp0 hfmem rfl rfl hnof hvis (k + 1)
  have halloc : memmgr_alloc s nbytes
      = allocLoop s (nquantasOf nbytes) f (nxOf s.hdrs f) (allocFuel s) := by
    simp only [memmgr_alloc, hfr]
  rw [hlinks f hfmem, hk, hrun, allocLoop_fit_at s (nquantasOf nbytes) pv t k hfit]
    at halloc
  refine ⟨pv, hpvm, hpvsucc, ?_⟩
  by_cases he : szOf s.hdrs t = nquantasOf nbytes
  · rw [if_pos he] at halloc
    exact Or.inl ⟨he, halloc,
      WF_fitExact s S f (nquantasOf nbytes) pv t hwf ht hpvm hpvsucc hnq1 he⟩
  · rw [if_neg he] at halloc
    exact Or.inr ⟨by omega, halloc,
      WF_fitSplit s S f (nquantasOf nbytes) pv t hwf ht hpvm hnq1 (by omega)⟩

theorem hstore_length_le (a : Nat) (h : Header) : ∀ (m : HeapMem),
    (hstore m a h).length ≤ m.length + 1 := by
  intro m
  induction m with
  | nil => simp [hstore]
  | cons kv rest ih =>
      by_cases hk : kv.1 = a
      · simp only [hstore, if_pos hk, List.length_cons]
        omega
      · simp only [hstore, if_neg hk, List.length_cons]
        omega

theorem mergeHigher_length_le (m0 : HeapMem) (p block : Nat) :
    (mergeHigher m0 p block).length ≤ m0.length + 2 := by
  unfold mergeHigher setNext setSize
  split
  · have h1 := hstore_length_le block
      (⟨(readHdr m0 block).next, szOf m0 block + szOf m0 (nxOf m0 p)⟩ : Header) m0
    have h2 := hstore_length_le block
      (⟨nxOf
          (hstore m0 block
            (⟨(readHdr m0 block).next, szOf m0 block + szOf m0 (nxOf m0 p)⟩ : Header))
          (nxOf
            (hstore m0 block
              (⟨(readHdr m0 block).next,
                szOf m0 block + szOf m0 (nxOf m0 p)⟩ : Header)) p),
        (readHdr
          (hstore m0 block
            (⟨(readHdr m0 block).next, szOf m0 block + szOf m0 (nxOf m0 p)⟩ : Header))
          block).size⟩ : Header)
      (hstore m0 block
        (⟨(readHdr m0 block).next, szOf m0 block + szOf m0 (nxOf m0 p)⟩ : Header))
    omega
  · have h1 := hstore_length_le block
      (⟨nxOf m0 p, (readHdr m0 block).size⟩ : Header) m0
    omega

theorem mergeLower_length_le (m1 : HeapMem) (p block : Nat) :
    (mergeLower m1 p block).length ≤ m1.length + 2 := by
  unfold mergeLower setNext setSize
  split
  · have h1 := hstore_length_le p
      (⟨(readHdr m1 p).next, szOf m1 p + szOf m1 block⟩ : Header) m1
    have h2 := hstore_length_le p
      (⟨nxOf
          (hstore m1 p
            (⟨(readHdr m1 p).next, szOf m1 p + szOf m1 block⟩ : Header)) block,
        (readHdr
          (hstore m1 p
            (⟨(readHdr m1 p).next, szOf m1 p + szOf m1 block⟩ : Header)) p).size⟩ :
        Header)
      (hstore m1 p (⟨(readHdr m1 p).next, szOf m1 p + szOf m1 block⟩ : Header))
    omega
  · have h1 := hstore_length_le p (⟨block, (readHdr m1 p).size⟩ : Header) m1
    omega

theorem memmgr_free_length_le (s : MemMgr) (ap : Nat) (s1 : MemMgr)
    (h : memmgr_free s ap = some s1) : s1.hdrs.length ≤ s.hdrs.length + 4 := by
  unfold memmgr_free at h
  split at h
  · cases h
  · split at h
    · cases h
    · next p heq =>
        cases h
        have h1 := mergeLower_length_le (mergeHigher s.hdrs p (ap - 1)) p (ap - 1)
        have h2 := mergeHigher_length_le s.hdrs p (ap - 1)
        show (mergeLower (mergeHigher s.hdrs p (ap - 1)) p (ap - 1)).length
          ≤ s.hdrs.length + 4
        omega

/-- `memmgr_free` never reads the pool cursor: changing it commutes
with the call. -/
theorem memmgr_free_irrel_pos (s : MemMgr) (q ap : Nat) :
    memmgr_free { s with pool_free_pos := q } ap
      = Option.map (fun u => { u with pool_free_pos := q }) (memmgr_free s ap) := by
  cases hf : s.freep with
  | none => simp [memmgr_free, hf]
  | some f =>
      cases hsc : freeScan s.hdrs (ap - 1) (s.hdrs.length + 1) f with
      | none => simp [memmgr_free, hf, hsc]
      | some p => simp [memmgr_free, hf, hsc]

/-- Running the scan loop on a well-formed state holding a fitting
block: the loop returns a non-null payload pointer of the requested
quanta size, keeps the state well-formed, and never touches the pool
cursor. -/
theorem allocLoop_fit_run (s : MemMgr) (S : List Nat) (f nq t : Nat)
    (hwf : WF s S f) (ht : t ∈ S) (hnq : 1 ≤ nq)
    (hfit : nq ≤ szOf s.hdrs t)
    (hfirst : ∀ c ∈ S, nq ≤ szOf s.hdrs c →
      cycDist S (cycSucc S f) t ≤ cycDist S (cycSucc S f) c)
    (k : Nat) (hk : S.length + 1 ≤ k) :
    ∃ r s2, allocLoop s nq f (nxOf s.hdrs f) k = some (some r, s2) ∧
      (∃ S2 f2, WF s2 S2 f2) ∧
      s2.pool_free_pos = s.pool_free_pos ∧ s2.POOL_SIZE = s.POOL_SIZE ∧
      s2.data = s.data ∧ szOf s2.hdrs (r - 1) = nq ∧ 1 ≤ r := by
  have hsort := hwf.1
  have hfmem := hwf.2.1
  have hfr := hwf.2.2.1
  have hlinks := hwf.2.2.2.1
  have hp0 : cycSucc S f ∈ S := cycSucc_mem (List.ne_nil_of_mem hfmem) f
  have hd : cycDist S (cycSucc S f) t ≤ S.length := cycDist_le_length S _ t
  have hnof : cycDist S (cycSucc S f) t ≤ cycDist S (cycSucc S f) f :=
    cycDist_from_succ_le hsort hfmem ht
  have hvis : ∀ c ∈ S, cycDist S (cycSucc S f) c < cycDist S (cycSucc S f) t →
      szOf s.hdrs c < nq := by
    intro c hc hcd
    by_cases h : nq ≤ szOf s.hdrs c
    · have := hfirst c hc h
      omega
    · omega
  obtain ⟨k2, hk2⟩ : ∃ k2, k = cycDist S (cycSucc S f) t + (k2 + 1) :=
    ⟨k - cycDist S (cycSucc S f) t - 1, by omega⟩
  obtain ⟨pv, hpvm, hpvsucc, hrun⟩ :=
    allocLoop_reach s S f nq hsort hfr hfmem hlinks t ht
      (cycDist S (cycSucc S f) t) (cycSucc S f) f hp0 hfmem rfl rfl hnof hvis (k2 + 1)
  rw [hlinks f hfmem, hk2, hrun, allocLoop_fit_at s nq pv t k2 hfit]
  by_cases he : szOf s.hdrs t = nq
  · rw [if_pos he]
    refine ⟨t + 1, _, rfl, ⟨delOne t S, pv,
      WF_fitExact s S f nq pv t hwf ht hpvm hpvsucc hnq he⟩, rfl, rfl, rfl, ?_, by omega⟩
    show szOf (setNext s.hdrs pv (nxOf s.hdrs t)) (t + 1 - 1) = nq
    rw [szOf_setNext]
    show szOf s.hdrs t = nq
    exact he
  · rw [if_neg he]
    refine ⟨t + (szOf s.hdrs t - nq) + 1, _, rfl, ⟨S, pv,
      WF_fitSplit s S f nq pv t hwf ht hpvm hnq (by omega)⟩, rfl, rfl, rfl, ?_, by omega⟩
    show szOf (setSize (setSize s.hdrs t (szOf s.hdrs t - nq))
      (t + (szOf s.hdrs t - nq)) nq) (t + (szOf s.hdrs t - nq) + 1 - 1) = nq
    have h1 : t + (szOf s.hdrs t - nq) + 1 - 1 = t + (szOf s.hdrs t - nq) := by omega
    rw [h1, szOf_setSize_same]

/-- When no free block fits and the pool has no headroom either, the
allocation returns null with every piece of allocator state exactly
as before. -/
theorem memmgr_alloc_nofit_refused (s : MemMgr) (S : List Nat) (f nbytes : Nat)
    (hwf : WF s S f)
    (hnofit : ∀ c ∈ S, szOf s.hdrs c < nquantasOf nbytes)
    (hroom : ¬ ((s.pool_free_pos + totalReq (nquantasOf nbytes)) % wordMod
      ≤ s.POOL_SIZE)) :
    memmgr_alloc s nbytes = some (none, s) := by
  have hsort := hwf.1
  have hfmem := hwf.2.1
  have hfr := hwf.2.2.1
  have hlinks := hwf.2.2.2.1
  have hlen := WF_len hwf
  have hp0 : cycSucc S f ∈ S := cycSucc_mem (List.ne_nil_of_mem hfmem) f
  have hd : cycDist S (cycSucc S f) f ≤ S.length := cycDist_le_length S _ f
  obtain ⟨k2, hk2⟩ : ∃ k2, allocFuel s = cycDist S (cycSucc S f) f + (k2 + 1) :=
    ⟨allocFuel s - cycDist S (cycSucc S f) f - 1, by unfold allocFuel; omega⟩
  obtain ⟨pv, hpvm, hpvsucc, hrun⟩ :=
    allocLoop_reach s S f (nquantasOf nbytes) hsort hfr hfmem hlinks f hfmem
      (cycDist S (cycSucc S f) f) (cycSucc S f) f hp0 hfmem rfl rfl (Nat.le_refl _)
      (fun c hc _ => hnofit c hc) (k2 + 1)
  have halloc : memmgr_alloc s nbytes
      = allocLoop s (nquantasOf nbytes) f (nxOf s.hdrs f) (allocFuel s) := by
    simp only [memmgr_alloc, hfr]
  rw [halloc, hlinks f hfmem, hk2, hrun,
    allocLoop_pool_at s (nquantasOf nbytes) pv f k2 hfr (hnofit f hfmem),
    get_mem_from_pool_refused s (nquantasOf nbytes) hroom]

/-- When no free block fits but the pool has headroom for the bumped
request, the allocation carves `max(nquantas, MIN_POOL_ALLOC_QUANTAS)`
quanta at the cursor, frees them into the list, and the retried scan
succeeds: a non-null pointer comes back, the state is well-formed
again, and the cursor advanced by exactly the carved amount. -/
theorem memmgr_alloc_nofit_carve (s : MemMgr) (S : List Nat) (f nbytes : Nat)
    (hwf : WF s S f)
    (hnofit : ∀ c ∈ S, szOf s.hdrs c < nquantasOf nbytes)
    (hroom : s.pool_free_pos + poolBump (nquantasOf nbytes) * hdrSize
      ≤ s.POOL_SIZE) :
    ∃ r s2, memmgr_alloc s nbytes = some (some r, s2) ∧
      (∃ S2 f2, WF s2 S2 f2) ∧
      s2.pool_free_pos
        = s.pool_free_pos + poolBump (nquantasOf nbytes) * hdrSize ∧
      s2.POOL_SIZE = s.POOL_SIZE ∧ s2.data = s.data ∧
      memmgr_get_block_size s2.hdrs r = nquantasOf nbytes ∧ 1 ≤ r := by
  have hmin := WF_base_min hwf
  have hlen := WF_len hwf
  obtain ⟨hsort, hfmem, hfr, hlinks, hbmem, hbsize, hlower, hboundS, hsep,
    hkeys, hknodup, halign, hcb, hps⟩ := hwf
  have hnq1 : 1 ≤ nquantasOf nbytes := by
    unfold nquantasOf hdrSize
    rw [wordMod_val]
    omega
  have hQge : nquantasOf nbytes ≤ poolBump (nquantasOf nbytes) := by
    unfold poolBump
    split <;> omega
  have hQ1 : 1 ≤ poolBump (nquantasOf nbytes) := by omega
  have hfresh : ∀ c ∈ S, c < poolAddr + s.pool_free_pos / hdrSize := by
    intro c hc
    by_cases hcb : c = baseAddr
    · have h1 := hboundS c hc
      subst hcb
      rw [hbsize] at h1
      unfold hdrSize at h1 ⊢
      simp only [baseAddr, poolAddr] at h1 ⊢
      omega
    · have h1 := hboundS c hc
      have h2 := (hlower c hc hcb).2
      unfold hdrSize at h1 ⊢
      omega
  have hQ16 : poolBump (nquantasOf nbytes) * hdrSize < wordMod := by
    have h1 := hroom
    have h2 := hps
    unfold hdrSize at h1 ⊢
    omega
  have htr : totalReq (nquantasOf nbytes)
      = poolBump (nquantasOf nbytes) * hdrSize := by
    unfold totalReq
    exact Nat.mod_eq_of_lt hQ16
  have hsum : (s.pool_free_pos + totalReq (nquantasOf nbytes)) % wordMod
      = s.pool_free_pos + poolBump (nquantasOf nbytes) * hdrSize := by
    rw [htr]
    refine Nat.mod_eq_of_lt ?_
    have h1 := hroom
    have h2 := hps
    unfold hdrSize at h1 ⊢
    omega
  have hroomchk : (s.pool_free_pos + totalReq (nquantasOf nbytes)) % wordMod
      ≤ s.POOL_SIZE := by
    rw [hsum]
    exact hroom
  have hdiv : (s.pool_free_pos + poolBump (nquantasOf nbytes) * hdrSize) / hdrSize
      = s.pool_free_pos / hdrSize + poolBump (nquantasOf nbytes) := by
    refine Nat.add_mul_div_right s.pool_free_pos (poolBump (nquantasOf nbytes)) ?_
    unfold hdrSize
    omega
  -- the ghost state: block carved AND cursor already advanced
  have hwfg : WF { s with
      hdrs := setSize s.hdrs (poolAddr + s.pool_free_pos / hdrSize)
        (poolBump (nquantasOf nbytes)),
      pool_free_pos := s.pool_free_pos + poolBump (nquantasOf nbytes) * hdrSize }
      S f := by
    refine ⟨hsort, hfmem, hfr, ?_, hbmem, ?_, ?_, ?_, ?_, ?_, ?_, ?_, ?_, ?_⟩
    · intro a ha
      show nxOf (setSize s.hdrs (poolAddr + s.pool_free_pos / hdrSize)
        (poolBump (nquantasOf nbytes))) a = cycSucc S a
      rw [nxOf_setSize]
      exact hlinks a ha
    · show szOf (setSize s.hdrs (poolAddr + s.pool_free_pos / hdrSize)
        (poolBump (nquantasOf nbytes))) baseAddr = 0
      rw [szOf_setSize_other _ _ _ _ (by have h9 := hfresh baseAddr hbmem; unfold hdrSize at h9 ⊢; omega)]
      exact hbsize
    · intro a ha hab
      show poolAddr ≤ a ∧ 1 ≤ szOf (setSize s.hdrs
        (poolAddr + s.pool_free_pos / hdrSize) (poolBump (nquantasOf nbytes))) a
      rw [szOf_setSize_other _ _ _ _ (by have h9 := hfresh a ha; unfold hdrSize at h9 ⊢; omega)]
      exact hlower a ha hab
    · intro a ha
      show a + szOf (setSize s.hdrs (poolAddr + s.pool_free_pos / hdrSize)
          (poolBump (nquantasOf nbytes))) a
        ≤ poolAddr + (s.pool_free_pos + poolBump (nquantasOf nbytes) * hdrSize)
          / hdrSize
      rw [szOf_setSize_other _ _ _ _ (by have h9 := hfresh a ha; unfold hdrSize at h9 ⊢; omega), hdiv]
      have h8 := hboundS a ha
      unfold hdrSize at h8 ⊢
      omega
    · intro a ha b hb hab
      show a + szOf (setSize s.hdrs (poolAddr + s.pool_free_pos / hdrSize)
        (poolBump (nquantasOf nbytes))) a ≤ b
      rw [szOf_setSize_other _ _ _ _ (by have h9 := hfresh a ha; unfold hdrSize at h9 ⊢; omega)]
      exact hsep a ha b hb hab
    · intro a ha
      exact (keys_hstore _ _ _ a).mpr (Or.inr (hkeys a ha))
    · exact knodup_hstore _ _ _ hknodup
    · show hdrSize ∣ s.pool_free_pos + poolBump (nquantasOf nbytes) * hdrSize
      exact Nat.dvd_add halign (Dvd.intro_left _ rfl)
    · show s.pool_free_pos + poolBump (nquantasOf nbytes) * hdrSize ≤ s.POOL_SIZE
      exact hroom
    · exact hps
  obtain ⟨s1, S1, hfc⟩ :=
    memmgr_free_spec
      { s with
        hdrs := setSize s.hdrs (poolAddr + s.pool_free_pos / hdrSize)
          (poolBump (nquantasOf nbytes)),
        pool_free_pos := s.pool_free_pos + poolBump (nquantasOf nbytes) * hdrSize }
      S f (poolAddr + s.pool_free_pos / hdrSize) hwfg
      (Nat.le_add_right _ _)
      (fun hbS => absurd (hfresh _ hbS) (Nat.lt_irrefl _))
      (by rw [szOf_setSize_same]; exact hQ1)
      (by
        show poolAddr + s.pool_free_pos / hdrSize + szOf (setSize s.hdrs _ _) _
          ≤ poolAddr + (s.pool_free_pos + poolBump (nquantasOf nbytes) * hdrSize)
            / hdrSize
        rw [szOf_setSize_same, hdiv]
        unfold hdrSize
        omega)
      (by
        intro c hc
        left
        show c + szOf (setSize s.hdrs (poolAddr + s.pool_free_pos / hdrSize)
            (poolBump (nquantasOf nbytes))) c
          ≤ poolAddr + s.pool_free_pos / hdrSize
        rw [szOf_setSize_other _ _ _ _ (by have h9 := hfresh c hc; unfold hdrSize at h9 ⊢; omega)]
        have h1 := hboundS c hc
        exact h1)
  unfold FreeSpecConcl at hfc
  obtain ⟨hrun1, hwf1, hPS1, hpos1, hdata1, hframe1,
    ⟨cov, hcovm, hcovle, hcovsz, hcovoth⟩, hincl1⟩ := hfc
  have hg : Option.map
      (fun u => { u with pool_free_pos :=
        s.pool_free_pos + poolBump (nquantasOf nbytes) * hdrSize })
      (memmgr_free
        { s with hdrs := setSize s.hdrs (poolAddr + s.pool_free_pos / hdrSize) (poolBump (nquantasOf nbytes)) }
        (poolAddr + s.pool_free_pos / hdrSize + 1)) = some s1 := by
    rw [← memmgr_free_irrel_pos]
    exact hrun1
  obtain ⟨u, hu, hFu⟩ := Option.map_eq_some'.mp hg
  have hupos : u.pool_free_pos = s.pool_free_pos :=
    (memmgr_free_frame _ _ _ hu).2.2
  have hup2 : u.freep = some (predIn S (poolAddr + s.pool_free_pos / hdrSize)) := by
    have h1 : u.freep = s1.freep := by rw [← hFu]
    rw [h1]
    exact hwf1.2.2.1
  have hrec : ({ u with pool_free_pos :=
      (u.pool_free_pos + totalReq (nquantasOf nbytes)) % wordMod } : MemMgr)
      = s1 := by
    rw [hupos, hsum]
    exact hFu
  have hget : get_mem_from_pool s (nquantasOf nbytes)
      = some (some (predIn S (poolAddr + s.pool_free_pos / hdrSize)), s1) := by
    unfold get_mem_from_pool
    rw [if_pos hroomchk, hu]
    show some (u.freep, ({ u with pool_free_pos :=
      (u.pool_free_pos + totalReq (nquantasOf nbytes)) % wordMod } : MemMgr)) = _
    rw [hrec, hup2]
  -- run the loop: full first cycle, pool refill, successful retry
  have hp0 : cycSucc S f ∈ S := cycSucc_mem (List.ne_nil_of_mem hfmem) f
  have hd : cycDist S (cycSucc S f) f ≤ S.length := cycDist_le_length S _ f
  obtain ⟨k2, hk2⟩ : ∃ k2, allocFuel s = cycDist S (cycSucc S f) f + (k2 + 1) :=
    ⟨allocFuel s - cycDist S (cycSucc S f) f - 1, by unfold allocFuel; omega⟩
  obtain ⟨pv, hpvm, hpvsucc, hrun⟩ :=
    allocLoop_reach s S f (nquantasOf nbytes) hsort hfr hfmem hlinks f hfmem
      (cycDist S (cycSucc S f) f) (cycSucc S f) f hp0 hfmem rfl rfl (Nat.le_refl _)
      (fun c hc _ => hnofit c hc) (k2 + 1)
  have halloc : memmgr_alloc s nbytes
      = allocLoop s1 (nquantasOf nbytes)
          (predIn S (poolAddr + s.pool_free_pos / hdrSize))
          (nxOf s1.hdrs (predIn S (poolAddr + s.pool_free_pos / hdrSize))) k2 := by
    have h0 : memmgr_alloc s nbytes
        = allocLoop s (nquantasOf nbytes) f (nxOf s.hdrs f) (allocFuel s) := by
      simp only [memmgr_alloc, hfr]
    rw [h0, hlinks f hfmem, hk2, hrun,
      allocLoop_pool_at s (nquantasOf nbytes) pv f k2 hfr (hnofit f hfmem), hget]
  -- the carved block's cover fits the request; nothing else grew
  have hcovfit : nquantasOf nbytes ≤ szOf s1.hdrs cov := by
    have h1 : szOf (setSize s.hdrs (poolAddr + s.pool_free_pos / hdrSize)
        (poolBump (nquantasOf nbytes))) (poolAddr + s.pool_free_pos / hdrSize)
        = poolBump (nquantasOf nbytes) := szOf_setSize_same _ _ _
    rw [h1] at hcovsz
    unfold hdrSize at hcovsz hcovle
    omega
  have hfirst : ∀ c ∈ S1, nquantasOf nbytes ≤ szOf s1.hdrs c →
      cycDist S1 (cycSucc S1 (predIn S (poolAddr + s.pool_free_pos / hdrSize))) cov
      ≤ cycDist S1 (cycSucc S1 (predIn S (poolAddr + s.pool_free_pos / hdrSize)))
        c := by
    intro c hc hcfit
    by_cases hccov : c = cov
    · rw [hccov]
    · exfalso
      obtain ⟨hsz, hcS⟩ := hcovoth c hc hccov
      rw [hsz, szOf_setSize_other _ _ _ _ (by have h9 := hfresh c hcS; unfold hdrSize at h9 ⊢; omega)] at hcfit
      have := hnofit c hcS
      omega
  have hlen1 : S1.length + 1 ≤ k2 := by
    have h1 := WF_len hwf1
    have h2 : s1.hdrs = u.hdrs := by rw [← hFu]
    have h3 := memmgr_free_length_le _ _ _ hu
    have h4 : (setSize s.hdrs (poolAddr + s.pool_free_pos / hdrSize)
        (poolBump (nquantasOf nbytes))).length ≤ s.hdrs.length + 1 :=
      hstore_length_le _ _ _
    have h5 : ({ s with hdrs := setSize s.hdrs (poolAddr + s.pool_free_pos / hdrSize) (poolBump (nquantasOf nbytes)) } : MemMgr).hdrs.length
        = (setSize s.hdrs (poolAddr + s.pool_free_pos / hdrSize) (poolBump (nquantasOf nbytes))).length := rfl
    rw [h5] at h3
    rw [h2] at h1
    have h6 : allocFuel s = 2 * s.hdrs.length + 8 := rfl
    omega
  obtain ⟨r, s2, hloop, hwf2, hpos2, hPS2, hdata2, hsz2, hr1⟩ :=
    allocLoop_fit_run s1 S1 (predIn S (poolAddr + s.pool_free_pos / hdrSize))
      (nquantasOf nbytes) cov hwf1 hcovm hnq1 hcovfit hfirst k2 hlen1
  refine ⟨r, s2, halloc.trans hloop, hwf2, ?_, ?_, ?_, hsz2, hr1⟩
  · rw [hpos2, hpos1]
  · rw [hPS2, hPS1]
  · rw [hdata2, hdata1]

/-- If any free block fits, a first fit (in scan order from one past
`freep`) exists. -/
theorem exists_first_fit (s : MemMgr) (S : List Nat) (f nq t0 : Nat)
    (ht0 : t0 ∈ S) (hfit0 : nq ≤ szOf s.hdrs t0) :
    ∃ t, t ∈ S ∧ nq ≤ szOf s.hdrs t ∧ ∀ c ∈ S, nq ≤ szOf s.hdrs c →
      cycDist S (cycSucc S f) t ≤ cycDist S (cycSucc S f) c := by
  have hne : S.filter (fun c => decide (nq ≤ szOf s.hdrs c)) ≠ [] := by
    refine List.ne_nil_of_mem (a := t0) ?_
    refine List.mem_filter.mpr ⟨ht0, ?_⟩
    simpa using hfit0
  obtain ⟨t, htm, hmin⟩ := exists_minBy (cycDist S (cycSucc S f)) _ hne
  obtain ⟨htS, htfit⟩ := List.mem_filter.mp htm
  refine ⟨t, htS, by simpa using htfit, ?_⟩
  intro c hc hcfit
  exact hmin c (List.mem_filter.mpr ⟨hc, by simpa using hcfit⟩)

/-- A tiny concrete allocator state with a seeded free list: the base
header at 1 and one 3-quanta free block at 2, with a cursor at byte
80 of a 1024-byte pool. -/
def wList : MemMgr :=
  { hdrs := [(baseAddr, ⟨poolAddr, 0⟩), (poolAddr, ⟨baseAddr, 3⟩), (5, ⟨0, 2⟩)]
  , freep := some baseAddr
  , POOL_SIZE := 1024
  , pool_free_pos := 80
  , data := [] }

/-- C4: `allocate(n)` converts the requested bytes to a quanta count
that covers header plus payload (an exact multiple of the quantum
never under-allocates), walks the free list next-fit starting one
past the last scanned position `freep`, unlinks and returns an
exact-size block, and splits an oversized block by shrinking its
size field to the remainder in place (the remaining free portion
keeps the original header address) and returning the carved
high-address tail. -/
theorem alloc_quanta_and_next_fit (s : MemMgr) (S : List Nat) (f nbytes t : Nat)
    (hwf : WF s S f) (ht : t ∈ S)
    (hn : nbytes + hdrSize ≤ wordMod)
    (hfit : nquantasOf nbytes ≤ szOf s.hdrs t)
    (hfirst : ∀ c ∈ S, nquantasOf nbytes ≤ szOf s.hdrs c →
      cycDist S (cycSucc S f) t ≤ cycDist S (cycSucc S f) c) :
    nbytes ≤ (nquantasOf nbytes - 1) * hdrSize ∧
    (∀ k, k * hdrSize = nbytes → nquantasOf nbytes = k + 1) ∧
    memmgr_alloc s nbytes
      = allocLoop s (nquantasOf nbytes) f (nxOf s.hdrs f) (allocFuel s) ∧
    nxOf s.hdrs f = cycSucc S f ∧
    ∃ pv, pv ∈ S ∧ cycSucc S pv = t ∧
      ((szOf s.hdrs t = nquantasOf nbytes ∧
        memmgr_alloc s nbytes = some (some (t + 1),
          { s with hdrs := setNext s.hdrs pv (nxOf s.hdrs t), freep := some pv }) ∧
        WF { s with hdrs := setNext s.hdrs pv (nxOf s.hdrs t), freep := some pv }
          (delOne t S) pv) ∨
       (nquantasOf nbytes < szOf s.hdrs t ∧
        memmgr_alloc s nbytes =
          some (some (t + (szOf s.hdrs t - nquantasOf nbytes) + 1),
            { s with
              hdrs := setSize (setSize s.hdrs t (szOf s.hdrs t - nquantasOf nbytes))
                (t + (szOf s.hdrs t - nquantasOf nbytes)) (nquantasOf nbytes),
              freep := some pv }) ∧
        WF { s with
              hdrs := setSize (setSize s.hdrs t (szOf s.hdrs t - nquantasOf nbytes))
                (t + (szOf s.hdrs t - nquantasOf nbytes)) (nquantasOf nbytes),
              freep := some pv }
          S pv)) := by
  refine ⟨nquantas_covers nbytes hn, ?_, ?_, hwf.2.2.2.1 f hwf.2.1, ?_⟩
  · intro k hk
    rw [← hk]
    refine nquantas_exact_multiple k ?_
    rw [hk]
    exact hn
  · simp only [memmgr_alloc, hwf.2.2.1]
  · exact memmgr_alloc_fit s S f nbytes t hwf ht hfit hfirst

/-- Witness for C4: on the concrete state `wList`, `allocate(32)`
needs 3 quanta and the block at address 2 is an exact first fit. -/
theorem alloc_quanta_and_next_fit_witness :
    32 ≤ (nquantasOf 32 - 1) * hdrSize ∧
    nxOf wList.hdrs 1 = cycSucc [1, 2] 1 :=
  ⟨(alloc_quanta_and_next_fit wList [1, 2] 1 32 2 (by unfold WF; decide)
      (by decide) (by decide) (by decide) (by decide)).1,
   (alloc_quanta_and_next_fit wList [1, 2] 1 32 2 (by unfold WF; decide)
      (by decide) (by decide) (by decide) (by decide)).2.2.2.1⟩

/-- C9: a zero-byte request is not rejected: it is rounded up to one
quantum (header plus empty payload), and whenever the pool has room
for at least a minimum carve the call returns a non-null pointer to
a well-formed state whose recorded block size is the single quantum,
so `blockSize` and a later `release` treat it like any other block. -/
theorem alloc_zero_bytes (s : MemMgr) (S : List Nat) (f : Nat) (hwf : WF s S f)
    (hroom : s.pool_free_pos + MIN_POOL_ALLOC_QUANTAS * hdrSize ≤ s.POOL_SIZE) :
    nquantasOf 0 = 1 ∧
    ∃ r s2, malloc s 0 = some (some r, s2) ∧ 1 ≤ r ∧
      memmgr_get_block_size s2.hdrs r = 1 ∧ ∃ S2 f2, WF s2 S2 f2 := by
  refine ⟨by decide, ?_⟩
  by_cases hfit : ∃ t ∈ S, nquantasOf 0 ≤ szOf s.hdrs t
  · obtain ⟨t0, ht0, hf0⟩ := hfit
    obtain ⟨t, htS, htfit, hmin⟩ := exists_first_fit s S f (nquantasOf 0) t0 ht0 hf0
    obtain ⟨pv, hpvm, hpvsucc, hcase⟩ :=
      memmgr_alloc_fit s S f 0 t hwf htS htfit hmin
    rcases hcase with ⟨he, hrun, hwf2⟩ | ⟨he, hrun, hwf2⟩
    · refine ⟨t + 1, _, hrun, by omega, ?_, delOne t S, pv, hwf2⟩
      show szOf (setNext s.hdrs pv (nxOf s.hdrs t)) (t + 1 - 1) = 1
      rw [szOf_setNext]
      show szOf s.hdrs t = 1
      rw [he]
      decide
    · refine ⟨t + (szOf s.hdrs t - nquantasOf 0) + 1, _, hrun, by omega, ?_, S, pv,
        hwf2⟩
      show szOf (setSize (setSize s.hdrs t (szOf s.hdrs t - nquantasOf 0))
        (t + (szOf s.hdrs t - nquantasOf 0)) (nquantasOf 0))
        (t + (szOf s.hdrs t - nquantasOf 0) + 1 - 1) = 1
      have h1 : t + (szOf s.hdrs t - nquantasOf 0) + 1 - 1
          = t + (szOf s.hdrs t - nquantasOf 0) := by omega
      rw [h1, szOf_setSize_same]
      decide
  · push_neg at hfit
    have hroom2 : s.pool_free_pos + poolBump (nquantasOf 0) * hdrSize
        ≤ s.POOL_SIZE := by
      have h : poolBump (nquantasOf 0) = MIN_POOL_ALLOC_QUANTAS := by decide
      rw [h]
      exact hroom
    obtain ⟨r, s2, hrun, hwf2, hpos, hPS, hdata, hsz, hr⟩ :=
      memmgr_alloc_nofit_carve s S f 0 hwf hfit hroom2
    exact ⟨r, s2, hrun, hr, hsz.trans (by decide), hwf2⟩

/-- Witness for C9 on the concrete state `wList`. -/
theorem alloc_zero_bytes_witness :
    nquantasOf 0 = 1 ∧
    ∃ r s2, malloc wList 0 = some (some r, s2) ∧ 1 ≤ r ∧
      memmgr_get_block_size s2.hdrs r = 1 ∧ ∃ S2 f2, WF s2 S2 f2 :=
  alloc_zero_bytes wList [1, 2] 1 (by unfold WF; decide) (by decide)

/-- C5 (counterexample): `total_req_size = nquantas * 16` is computed
in 64-bit arithmetic, so a request of `2^64 - 16` bytes needs
`2^60` quanta whose byte size wraps to 0; the capacity check passes,
a zero-byte carve hands back the whole `2^60`-quanta block, and the
allocation returns non-null with zero cursor growth — although the
request is far larger than the 1024-byte region. -/
theorem pool_overflow_large_request_non_null :
    2 ^ 64 - 16 > cPool.POOL_SIZE ∧
    (malloc cPool (2 ^ 64 - 16)).map (fun p => (p.1, p.2.pool_free_pos))
      = some (some 3, 0) := by decide

/-- C5 (amended): when a full traversal finds no fitting block, the
pool is asked for `max(nquantas, MIN_POOL_ALLOC_QUANTAS)` quanta; if
the (64-bit) cursor-headroom check fails, the call returns null with
the state — cursor included — exactly unchanged; if there is room
without 64-bit overflow, the carved region is freed into the list,
the retried search succeeds with a non-null pointer, and the cursor
advances by exactly the carved byte count. -/
theorem pool_carve_spec (s : MemMgr) (S : List Nat) (f nbytes : Nat)
    (hwf : WF s S f)
    (hnofit : ∀ c ∈ S, szOf s.hdrs c < nquantasOf nbytes) :
    poolBump (nquantasOf nbytes)
      = max (nquantasOf nbytes) MIN_POOL_ALLOC_QUANTAS ∧
    (¬ ((s.pool_free_pos + totalReq (nquantasOf nbytes)) % wordMod
        ≤ s.POOL_SIZE) →
      memmgr_alloc s nbytes = some (none, s)) ∧
    (s.pool_free_pos + poolBump (nquantasOf nbytes) * hdrSize ≤ s.POOL_SIZE →
      ∃ r s2, memmgr_alloc s nbytes = some (some r, s2) ∧
        (∃ S2 f2, WF s2 S2 f2) ∧
        s2.pool_free_pos
          = s.pool_free_pos + poolBump (nquantasOf nbytes) * hdrSize ∧
        s2.POOL_SIZE = s.POOL_SIZE ∧ s2.data = s.data) := by
  refine ⟨?_, ?_, ?_⟩
  · unfold poolBump
    split
    · exact (Nat.max_eq_right (by omega)).symm
    · exact (Nat.max_eq_left (by omega)).symm
  · intro h
    exact memmgr_alloc_nofit_refused s S f nbytes hwf hnofit h
  · intro h
    obtain ⟨r, s2, h1, h2, h3, h4, h5, _, _⟩ :=
      memmgr_alloc_nofit_carve s S f nbytes hwf hnofit h
    exact ⟨r, s2, h1, h2, h3, h4, h5⟩

/-- Witness for C5 on `wList`: a 64-byte request (5 quanta) fits no
free block, and the pool has room for the bumped 16-quanta carve. -/
theorem pool_carve_spec_witness :
    poolBump (nquantasOf 64) = max (nquantasOf 64) MIN_POOL_ALLOC_QUANTAS ∧
    (∃ r s2, memmgr_alloc wList 64 = some (some r, s2) ∧
      (∃ S2 f2, WF s2 S2 f2) ∧
      s2.pool_free_pos = wList.pool_free_pos + poolBump (nquantasOf 64) * hdrSize ∧
      s2.POOL_SIZE = wList.POOL_SIZE ∧ s2.data = wList.data) :=
  ⟨(pool_carve_spec wList [1, 2] 1 64 (by unfold WF; decide) (by decide)).1,
   (pool_carve_spec wList [1, 2] 1 64 (by unfold WF; decide)
     (by decide)).2.2 (by decide)⟩

/-- C8: both allocator operations preserve the free-list invariant
(`WF`: an address-sorted duplicate-free list, circularly linked in
address order with the single wraparound edge, every block inside
the carved pool and pairwise disjoint).  A release leaves the
next-fit pointer on the freed block's address predecessor in the
list, and the block an allocation hands out does not appear in the
resulting free list. -/
theorem free_list_invariant_preserved (s : MemMgr) (S : List Nat) (f : Nat)
    (hwf : WF s S f) :
    (∀ block, poolAddr ≤ block → block ∉ S → 1 ≤ szOf s.hdrs block →
      block + szOf s.hdrs block ≤ poolAddr + s.pool_free_pos / hdrSize →
      (∀ c ∈ S, c + szOf s.hdrs c ≤ block ∨ block + szOf s.hdrs block ≤ c) →
      ∃ s1 S1, memmgr_free s (block + 1) = some s1 ∧
        WF s1 S1 (predIn S block) ∧ s1.freep = some (predIn S block) ∧
        predIn S block ∈ S ∧ predIn S block < block ∧
        (∀ c ∈ S, c < block → c ≤ predIn S block)) ∧
    (∀ nbytes t, t ∈ S → nquantasOf nbytes ≤ szOf s.hdrs t →
      (∀ c ∈ S, nquantasOf nbytes ≤ szOf s.hdrs c →
        cycDist S (cycSucc S f) t ≤ cycDist S (cycSucc S f) c) →
      ∃ r s2 S2 f2, memmgr_alloc s nbytes = some (some r, s2) ∧
        WF s2 S2 f2 ∧ r - 1 ∉ S2) := by
  constructor
  · intro block hb hnot hbs hbound hdisj
    obtain ⟨s1, S1, hfc⟩ :=
      memmgr_free_spec s S f block hwf hb hnot hbs hbound hdisj
    unfold FreeSpecConcl at hfc
    obtain ⟨hrun, hwf1, _⟩ := hfc
    have hprm : predIn S block ∈ S ∧ predIn S block < block := by
      refine predIn_mem S block ⟨baseAddr, hwf.2.2.2.2.1, ?_⟩
      have h1 : baseAddr < poolAddr := by decide
      omega
    exact ⟨s1, S1, hrun, hwf1, hwf1.2.2.1, hprm.1, hprm.2,
      fun c hc hcl => predIn_ge S block c hc hcl⟩
  · intro nbytes t ht hfit hfirst
    have hnq1 : 1 ≤ nquantasOf nbytes := by
      unfold nquantasOf hdrSize
      rw [wordMod_val]
      omega
    obtain ⟨pv, hpvm, hpvsucc, hcase⟩ :=
      memmgr_alloc_fit s S f nbytes t hwf ht hfit hfirst
    rcases hcase with ⟨he, hrun, hwf2⟩ | ⟨he, hrun, hwf2⟩
    · refine ⟨t + 1, _, delOne t S, pv, hrun, hwf2, ?_⟩
      intro hmem
      have h1 : t + 1 - 1 = t := by omega
      rw [h1] at hmem
      exact (mem_delOne.mp hmem).2 rfl
    · refine ⟨t + (szOf s.hdrs t - nquantasOf nbytes) + 1, _, S, pv, hrun, hwf2, ?_⟩
      intro hmem
      have h1 : t + (szOf s.hdrs t - nquantasOf nbytes) + 1 - 1
          = t + (szOf s.hdrs t - nquantasOf nbytes) := by omega
      rw [h1] at hmem
      rcases Nat.lt_trichotomy (t + (szOf s.hdrs t - nquantasOf nbytes)) t with
        h2 | h2 | h2
      · omega
      · omega
      · have h3 := hwf.2.2.2.2.2.2.2.2.1 t ht _ hmem h2
        omega

/-- Witness for C8 on `wList`: release of the allocated 2-quanta
block at 5, and an exact-fit allocation of 32 bytes. -/
theorem free_list_invariant_witness :
    (∃ s1 S1, memmgr_free wList (5 + 1) = some s1 ∧
      WF s1 S1 (predIn [1, 2] 5) ∧ s1.freep = some (predIn [1, 2] 5) ∧
      predIn [1, 2] 5 ∈ [1, 2] ∧ predIn [1, 2] 5 < 5 ∧
      (∀ c ∈ [1, 2], c < 5 → c ≤ predIn [1, 2] 5)) ∧
    (∃ r s2 S2 f2, memmgr_alloc wList 32 = some (some r, s2) ∧
      WF s2 S2 f2 ∧ r - 1 ∉ S2) :=
  ⟨(free_list_invariant_preserved wList [1, 2] 1 (by unfold WF; decide)).1 5
      (by decide) (by decide) (by decide) (by decide) (by decide),
   (free_list_invariant_preserved wList [1, 2] 1 (by unfold WF; decide)).2 32 2
      (by decide) (by decide) (by decide)⟩

/-- C6: releasing two address-adjacent allocated blocks, lower
address first, leaves a single free block covering both, and an
allocation of their combined usable size `(na+nb-1)*16` bytes (which
converts to exactly `na+nb` quanta) then succeeds without moving the
pool cursor. -/
theorem coalesce_adjacent_then_alloc (s : MemMgr) (S : List Nat) (f a na nb : Nat)
    (hwf : WF s S f)
    (ha : poolAddr ≤ a)
    (hsa : szOf s.hdrs a = na) (hsb : szOf s.hdrs (a + na) = nb)
    (hna : 1 ≤ na) (hnb : 1 ≤ nb)
    (hnotA : a ∉ S) (hnotB : a + na ∉ S)
    (hbound : a + na + nb ≤ poolAddr + s.pool_free_pos / hdrSize)
    (hdisjA : ∀ c ∈ S, c + szOf s.hdrs c ≤ a ∨ a + na ≤ c)
    (hdisjB : ∀ c ∈ S, c + szOf s.hdrs c ≤ a + na ∨ a + na + nb ≤ c) :
    ∃ s1 s2 r s3,
      memmgr_free s (a + 1) = some s1 ∧
      memmgr_free s1 (a + na + 1) = some s2 ∧
      (∃ cov, cov ≤ a ∧ a + na + nb ≤ cov + szOf s2.hdrs cov) ∧
      memmgr_alloc s2 ((na + nb - 1) * hdrSize) = some (some r, s3) ∧
      s3.pool_free_pos = s.pool_free_pos := by
  have hwfc := hwf
  obtain ⟨hsort, hfmem, hfr, hlinks, hbmem, hbsize, hlower, hboundS, hsep,
    hkeys, hknodup, halign, hcb, hps⟩ := hwfc
  have ha2 : 2 ≤ a := by simp only [poolAddr] at ha; exact ha
  have hbase_lt : baseAddr < a := by simp only [baseAddr]; omega
  -- free the lower block a
  obtain ⟨s1, S1, hfc1⟩ := memmgr_free_spec s S f a hwf ha hnotA
    (by rw [hsa]; exact hna)
    (by rw [hsa]; exact by unfold hdrSize at hbound ⊢; omega)
    (by intro c hc; rw [hsa]; exact hdisjA c hc)
  unfold FreeSpecConcl at hfc1
  obtain ⟨hrun1, hwf1, hPS1, hpos1, hdata1, hframe1,
    ⟨cov1, hc1m, hc1le, hc1sz, hc1oth⟩, hincl1⟩ := hfc1
  rw [hsa] at hc1sz
  have hwf1c := hwf1
  obtain ⟨hsort1, hfmem1, hfr1, hlinks1, hbmem1, hbsize1, hlower1, hboundS1,
    hsep1, hkeys1, hknodup1, halign1, hcb1, hps1⟩ := hwf1c
  obtain ⟨hP1m, hP1lt⟩ := predIn_mem S a ⟨baseAddr, hbmem, hbase_lt⟩
  have hsb1 : szOf s1.hdrs (a + na) = nb := by
    show (readHdr s1.hdrs (a + na)).size = nb
    rw [hframe1 (a + na) (by omega) (by omega)]
    exact hsb
  -- the cover of the first free ends exactly at a + na
  have hcov1ub : cov1 + szOf s1.hdrs cov1 ≤ a + na := by
    by_contra hlt
    push_neg at hlt
    rcases hincl1 cov1 hc1m (a + na) (by omega) hlt with
      ⟨c, hcS, hcle, hclt⟩ | ⟨_, hblt⟩
    · rcases hdisjB c hcS with h | h
      · omega
      · omega
    · rw [hsa] at hblt
      omega
  have hc1exact : cov1 + szOf s1.hdrs cov1 = a + na := by omega
  have hnotB1 : a + na ∉ S1 := by
    intro hmem
    by_cases hbe : a + na = cov1
    · omega
    · exact hnotB (hc1oth (a + na) hmem hbe).2
  have hP1b : predIn S1 (a + na) = cov1 := by
    obtain ⟨hqm, hqlt⟩ := predIn_mem S1 (a + na) ⟨cov1, hc1m, by omega⟩
    have h1 : cov1 ≤ predIn S1 (a + na) := predIn_ge S1 (a + na) cov1 hc1m (by omega)
    have h2 : predIn S1 (a + na) ≤ cov1 := by
      by_contra h3
      push_neg at h3
      have h4 := hsep1 cov1 hc1m (predIn S1 (a + na)) hqm h3
      omega
    omega
  have hc2cond : predIn S1 (a + na) + szOf s1.hdrs (predIn S1 (a + na)) = a + na := by
    rw [hP1b]
    exact hc1exact
  -- common hypotheses for the second free
  have hbB : poolAddr ≤ a + na := by simp only [poolAddr]; omega
  have hbsB : 1 ≤ szOf s1.hdrs (a + na) := by rw [hsb1]; exact hnb
  have hboundB : a + na + szOf s1.hdrs (a + na)
      ≤ poolAddr + s1.pool_free_pos / hdrSize := by
    rw [hsb1, hpos1]
    unfold hdrSize at hbound ⊢
    omega
  have hdisjB1 : ∀ c ∈ S1, c + szOf s1.hdrs c ≤ a + na ∨
      a + na + szOf s1.hdrs (a + na) ≤ c := by
    intro c hc
    rw [hsb1]
    by_cases hcc : c = cov1
    · subst hcc
      left
      omega
    · obtain ⟨hszeq, hcS⟩ := hc1oth c hc hcc
      rw [hszeq]
      rcases hdisjB c hcS with h | h
      · left; exact h
      · right; exact h
  -- free the upper block: its back-merge condition provably fires
  have hstep2 : ∃ s2 S2, FreeSpecConcl s1 S1 (a + na) s2 S2 ∧
      ∀ c ∈ S2, c ∈ S1 := by
    by_cases hc1cond : a + na + szOf s1.hdrs (a + na)
        = cycSucc S1 (predIn S1 (a + na))
    · exact ⟨_, _, memmgr_free_spec_YY s1 S1 (predIn S a) (a + na) hwf1 hbB
        hnotB1 hbsB hboundB hdisjB1 hc1cond hc2cond,
        fun c hc => (mem_delOne.mp hc).1⟩
    · exact ⟨_, _, memmgr_free_spec_NY s1 S1 (predIn S a) (a + na) hwf1 hbB
        hnotB1 hbsB hboundB hdisjB1 hc1cond hc2cond,
        fun c hc => hc⟩
  obtain ⟨s2, S2, hfc2, hS2sub⟩ := hstep2
  unfold FreeSpecConcl at hfc2
  obtain ⟨hrun2, hwf2, hPS2, hpos2, hdata2, hframe2,
    ⟨cov2, hc2m, hc2le, hc2sz, hc2oth⟩, hincl2⟩ := hfc2
  rw [hsb1] at hc2sz
  have hc2S1 : cov2 ∈ S1 := hS2sub cov2 hc2m
  have hc2lt : cov2 < a + na := by
    rcases Nat.lt_or_ge cov2 (a + na) with h | h
    · exact h
    · exfalso
      have : cov2 = a + na := by omega
      exact hnotB1 (this ▸ hc2S1)
  have hc2a : cov2 ≤ a := by
    by_contra h3
    push_neg at h3
    have h4 := hsep1 cov1 hc1m cov2 hc2S1 (by omega)
    omega
  -- the merged block covers both freed blocks; allocate the combined size
  have hcovers : a + na + nb ≤ cov2 + szOf s2.hdrs cov2 := by omega
  have hfit2 : nquantasOf ((na + nb - 1) * hdrSize) ≤ szOf s2.hdrs cov2 := by
    have hbd : (na + nb - 1) * hdrSize + hdrSize ≤ wordMod := by
      obtain ⟨m, hm⟩ : ∃ m, na + nb = m + 1 := ⟨na + nb - 1, by omega⟩
      have h2 : na + nb - 1 = m := by omega
      have h1 : s.pool_free_pos / 16 * 16 ≤ s.pool_free_pos :=
        Nat.div_mul_le_self _ _
      have hps2 := hps
      rw [h2]
      unfold hdrSize at hbound ⊢
      rw [wordMod_val]
      rw [wordMod_val] at hps2
      simp only [poolAddr] at hbound
      omega
    rw [nquantas_exact_multiple (na + nb - 1) hbd]
    omega
  obtain ⟨t, htS2, htfit, htmin⟩ :=
    exists_first_fit s2 S2 (predIn S1 (a + na))
      (nquantasOf ((na + nb - 1) * hdrSize)) cov2 hc2m hfit2
  obtain ⟨pv, hpvm, hpvsucc, hcase⟩ :=
    memmgr_alloc_fit s2 S2 (predIn S1 (a + na)) ((na + nb - 1) * hdrSize) t
      hwf2 htS2 htfit htmin
  rcases hcase with ⟨he, hrun3, hwf3⟩ | ⟨he, hrun3, hwf3⟩
  · refine ⟨s1, s2, t + 1, _, hrun1, hrun2, ⟨cov2, hc2a, hcovers⟩, hrun3, ?_⟩
    show s2.pool_free_pos = s.pool_free_pos
    rw [hpos2, hpos1]
  · refine ⟨s1, s2, t + (szOf s2.hdrs t - nquantasOf ((na + nb - 1) * hdrSize)) + 1,
      _, hrun1, hrun2, ⟨cov2, hc2a, hcovers⟩, hrun3, ?_⟩
    show s2.pool_free_pos = s.pool_free_pos
    rw [hpos2, hpos1]

/-- A concrete state with a free 3-quanta block at 2 and two
address-adjacent allocated blocks at 5 and 7 (2 quanta each). -/
def wCoal : MemMgr :=
  { hdrs := [(baseAddr, ⟨poolAddr, 0⟩), (poolAddr, ⟨baseAddr, 3⟩),
      (5, ⟨0, 2⟩), (7, ⟨0, 2⟩)]
  , freep := some baseAddr
  , POOL_SIZE := 1024
  , pool_free_pos := 112
  , data := [] }

/-- Witness for C6 on `wCoal`: free 5 then 7, then allocate the
combined usable 48 bytes. -/
theorem coalesce_adjacent_then_alloc_witness :
    ∃ s1 s2 r s3,
      memmgr_free wCoal (5 + 1) = some s1 ∧
      memmgr_free s1 (5 + 2 + 1) = some s2 ∧
      (∃ cov, cov ≤ 5 ∧ 5 + 2 + 2 ≤ cov + szOf s2.hdrs cov) ∧
      memmgr_alloc s2 ((2 + 2 - 1) * hdrSize) = some (some r, s3) ∧
      s3.pool_free_pos = wCoal.pool_free_pos :=
  coalesce_adjacent_then_alloc wCoal [1, 2] 1 5 2 2 (by unfold WF; decide)
    (by decide) (by decide) (by decide) (by decide) (by decide) (by decide)
    (by decide) (by decide) (by decide) (by decide)

end EasySandbox
